import Mathlib

/-!
Verification development for the voxscribe media-analysis pipeline
(`src/main/media-chunker.ts`, `src/main/whisper-service.ts`, `src/main/index.ts`).

Times are modelled as rationals (JavaScript numbers on the values this code
manipulates: finite arithmetic over +, -, min, max, halving).  `Math.round`
is modelled by `jsRound` (floor of x + 1/2, JavaScript's round-half-up).
-/

namespace Voxscribe

/-- An interval in source-media milliseconds (`SilenceInterval` of the source:
`{ startMs, endMs }`). -/
structure Seg where
  startMs : ℚ
  endMs : ℚ
  deriving DecidableEq, Repr

/-- `Required<MediaAnalysisOptions>` after `normalizeOptions`. -/
structure Options where
  silenceThresholdDb : ℚ
  minSilenceDurationMs : ℚ
  paddingBeforeMs : ℚ
  paddingAfterMs : ℚ
  minChunkDurationMs : ℚ
  maxChunkDurationMs : ℚ
  deriving DecidableEq, Repr

/-- JavaScript `Math.round`: round half toward positive infinity. -/
def jsRound (q : ℚ) : ℤ := ⌊q + 1/2⌋

/-- Span of a segment, `endMs - startMs`. -/
def span (s : Seg) : ℚ := s.endMs - s.startMs

/-! ### Segment Builder (`buildSpeechSegments`, media-chunker.ts:539-603) -/

/-- One iteration of the silence-inversion loop: clamp the silence interval to
`[0, clampedD]`, emit `[cursor, start)` when the clamped start exceeds the
cursor, advance the cursor to `max cursor end`.  The accumulator is kept in
reverse order (head = most recently emitted). -/
def invertStep (clampedD : ℚ) (st : ℚ × List Seg) (sil : Seg) : ℚ × List Seg :=
  let start := min (max 0 sil.startMs) clampedD
  let e := min (max 0 sil.endMs) clampedD
  let acc' := if st.1 < start then ⟨st.1, start⟩ :: st.2 else st.2
  (max st.1 e, acc')

/-- The inversion pass of `buildSpeechSegments`: walk the silences with a
cursor starting at 0 and emit the complementary speech segments, plus a
trailing segment to `clampedD` when the cursor ends below it. -/
def invertSilences (durationMs : ℚ) (silences : List Seg) : List Seg :=
  let clampedD := max 0 durationMs
  let st := silences.foldl (invertStep clampedD) (0, [])
  (if st.1 < clampedD then ⟨st.1, clampedD⟩ :: st.2 else st.2).reverse

/-- The padding pass: subtract `paddingBeforeMs` from the start (floored at 0),
add `paddingAfterMs` to the end (capped at `clampedD`), swap if inverted, and
drop zero-or-negative-length results. -/
def padSegments (clampedD padB padA : ℚ) (segs : List Seg) : List Seg :=
  (segs.map fun s =>
    let pS := max 0 (s.startMs - padB)
    let pE := min clampedD (s.endMs + padA)
    (⟨min pS pE, max pS pE⟩ : Seg)).filter fun s => s.startMs < s.endMs

/-- The merge pass: absorb any segment whose start falls at or before the
current segment's end, extending the current end; otherwise emit the current
segment and continue from the candidate. -/
def mergeGo (current : Seg) : List Seg → List Seg
  | [] => [current]
  | c :: rest =>
    if c.startMs ≤ current.endMs then mergeGo ⟨current.startMs, max current.endMs c.endMs⟩ rest
    else current :: mergeGo c rest

/-- `buildSpeechSegments(durationMs, silences, options)`: invert, pad, merge. -/
def buildSpeechSegments (durationMs : ℚ) (silences : List Seg) (opts : Options) : List Seg :=
  let clampedD := max 0 durationMs
  let withPadding :=
    padSegments clampedD opts.paddingBeforeMs opts.paddingAfterMs
      (invertSilences durationMs silences)
  match withPadding with
  | [] => []
  | c :: rest => mergeGo c rest

/-! ### Duration Constraint Enforcer (`enforceDurationConstraints`,
media-chunker.ts:605-684) -/

/-- The minimum-duration adjustment of one segment: grow a sub-minimum segment
symmetrically by half the deficit on each side, clamped to `[0, durationMs]`;
if still sub-minimum and clamped at a media boundary, extend only the
non-boundary side by the full minimum. -/
def adjustSegment (minC D : ℚ) (seg : Seg) : Seg :=
  if seg.endMs - seg.startMs < minC then
    let half := (minC - (seg.endMs - seg.startMs)) / 2
    let aS := max 0 (seg.startMs - half)
    let aE := min D (seg.endMs + half)
    if aE - aS < minC then
      if aS = 0 then ⟨aS, min D (aS + minC)⟩
      else if aE = D then ⟨max 0 (aE - minC), aE⟩
      else ⟨aS, aE⟩
    else ⟨aS, aE⟩
  else seg

/-- One iteration of the minimum-duration pass.  The accumulator (`normalized`
in the source) is kept in reverse order, so the source's "previous" element is
the head.  A non-positive-span segment is skipped; the adjusted segment is
merged into the previous entry when it touches or overlaps it, else pushed
with its coordinates clamped into `[0, D]`.  (The source checks
`adjustedEnd <= adjustedStart` only inside the sub-minimum branch; hoisting it
is equivalent because an unadjusted segment has positive span here.) -/
def minPassStep (minC D : ℚ) (acc : List Seg) (seg : Seg) : List Seg :=
  if seg.endMs - seg.startMs ≤ 0 then acc
  else
    let a := adjustSegment minC D seg
    if a.endMs ≤ a.startMs then acc
    else
      match acc with
      | prev :: tl =>
        if a.startMs ≤ prev.endMs then ⟨prev.startMs, max prev.endMs a.endMs⟩ :: tl
        else ⟨max 0 (min a.startMs D), max 0 (min a.endMs D)⟩ :: prev :: tl
      | [] => [⟨max 0 (min a.startMs D), max 0 (min a.endMs D)⟩]

/-- The minimum-duration pass over a whole segment list. -/
def minPass (minC D : ℚ) (segs : List Seg) : List Seg :=
  (segs.foldl (minPassStep minC D) []).reverse

/-- The splitting `while` loop of the maximum-duration pass: while more than
`maxC` remains, push a fixed-size window and advance (accumulator reversed:
head = latest window).  The source's loop terminates only when
`maxChunkDurationMs` is positive, hence the guard's first conjunct. -/
def splitGo (maxC : ℚ) (acc : List Seg) (cur e : ℚ) : List Seg × ℚ :=
  if h : 0 < maxC ∧ maxC < e - cur then
    splitGo maxC (⟨cur, cur + maxC⟩ :: acc) (cur + maxC) e
  else (acc, cur)
  termination_by (⌈(e - cur) / maxC⌉).toNat
  decreasing_by
    have hx : (1 : ℚ) < (e - cur) / maxC := (one_lt_div h.1).mpr h.2
    have h1 : (1 : ℤ) < ⌈(e - cur) / maxC⌉ := Int.lt_ceil.mpr (by exact_mod_cast hx)
    have h2 : (e - (cur + maxC)) / maxC = (e - cur) / maxC - 1 := by
      rw [show e - (cur + maxC) = e - cur - maxC by ring, sub_div, div_self h.1.ne']
    rw [h2, Int.ceil_sub_one]
    omega

/-- One iteration of the maximum-duration pass: split the segment into
`maxC`-sized windows; if the remainder is sub-minimum and a previous chunk
exists, extend that chunk to `min D segment.endMs`, else push the remainder as
its own chunk. -/
def maxPassStep (minC maxC D : ℚ) (acc : List Seg) (seg : Seg) : List Seg :=
  let r := splitGo maxC acc seg.startMs seg.endMs
  let remaining := seg.endMs - r.2
  match r.1 with
  | prev :: tl =>
    if remaining < minC then ⟨prev.startMs, min D seg.endMs⟩ :: tl
    else ⟨r.2, seg.endMs⟩ :: prev :: tl
  | [] => [⟨r.2, seg.endMs⟩]

/-- The maximum-duration pass over a whole segment list. -/
def maxPass (minC maxC D : ℚ) (segs : List Seg) : List Seg :=
  (segs.foldl (maxPassStep minC maxC D) []).reverse

/-- `enforceDurationConstraints(segments, options, durationMs)`: the
minimum-duration pass, the maximum-duration pass, then a final clamp of every
segment into `[0, durationMs]`. -/
def enforceDurationConstraints (segs : List Seg) (opts : Options) (D : ℚ) : List Seg :=
  if segs.isEmpty then segs
  else
    (maxPass opts.minChunkDurationMs opts.maxChunkDurationMs D
        (minPass opts.minChunkDurationMs D segs)).map
      fun s => ⟨max 0 s.startMs, min D s.endMs⟩

/-! ### Chunk assembly (`analyze`, media-chunker.ts:256-261) -/

/-- A final chunk: stable identifier plus rounded millisecond bounds. -/
structure MediaChunk where
  id : String
  startMs : ℤ
  endMs : ℤ
  durationMs : ℤ
  deriving DecidableEq, Repr

/-- The chunk built from the segment at (0-based) index `i`. -/
def mkChunk (i : ℕ) (s : Seg) : MediaChunk :=
  ⟨"chunk-" ++ toString (i + 1), jsRound s.startMs, jsRound s.endMs,
    max 0 (jsRound (s.endMs - s.startMs))⟩

/-- Assign 1-based identifiers `chunk-<n>` in list order. -/
def assignChunkIds : ℕ → List Seg → List MediaChunk
  | _, [] => []
  | i, s :: rest => mkChunk i s :: assignChunkIds (i + 1) rest

/-- The pure segment-construction core of `analyze`: build speech segments,
enforce duration constraints, round and assign identifiers. -/
def analyzeChunks (durationMs : ℤ) (silences : List Seg) (opts : Options) : List MediaChunk :=
  assignChunkIds 0
    (enforceDurationConstraints (buildSpeechSegments (durationMs : ℚ) silences opts) opts
      (durationMs : ℚ))

/-! ### Duration Prober (`probeDuration`, media-chunker.ts:395-471)

The prober runs external commands; the environment's responses at each step
are modelled by `ProbeEnv`.  The decisive structural fact mirrored from the
source: the first `runCommand` (format metadata) is awaited *outside* any
`try`, while strategy 1's JSON parsing, all of strategy 2, and all of
strategy 3 sit inside `try`/`catch` blocks. -/

/-- Outcomes of the external steps `probeDuration` performs, in source order:
`formatCmd` is the first ffprobe invocation (`Except.error` = rejected
promise: non-zero exit or spawn failure); `formatDuration` is the outcome of
`JSON.parse` plus `format.duration` extraction on its stdout (`none` = parse
threw, `some none` = missing/non-finite/NaN duration, `some (some d)` =
finite duration of `d` seconds); `streamStep` is all of strategy 2 (command
and parse inside one `try`); `decodeStep` is strategy 3 (`none` = the ffmpeg
decode command threw, `some none` = no `time=` match in stderr,
`some (some t)` = matched, `t` total seconds). -/
structure ProbeEnv where
  formatCmd : Except String Unit
  formatDuration : Option (Option ℚ)
  streamStep : Option (Option ℚ)
  decodeStep : Option (Option ℚ)

/-- Strategy 3 of `probeDuration`: the full-decode fallback returns the
parsed timestamp with no positivity check, and 0 when the decode threw or no
timestamp matched. -/
def probeDurationDecode (env : ProbeEnv) : Except String ℤ :=
  match env.decodeStep with
  | some (some t) => .ok (jsRound (t * 1000))
  | _ => .ok 0

/-- Strategies 2 and 3 of `probeDuration` (stream metadata, then full
decode), ending in the degraded result 0. -/
def probeDurationStream (env : ProbeEnv) : Except String ℤ :=
  match env.streamStep with
  | some (some d) =>
    if 0 < d then .ok (jsRound (d * 1000)) else probeDurationDecode env
  | _ => probeDurationDecode env

/-- `probeDuration(inputPath)`: three fallback strategies, each rejecting
non-finite or non-positive values, then 0.  A rejection of the *first*
command propagates (it is outside every `try` block in the source). -/
def probeDuration (env : ProbeEnv) : Except String ℤ :=
  match env.formatCmd with
  | .error e => .error e
  | .ok _ =>
    match env.formatDuration with
    | some (some d) =>
      if 0 < d then .ok (jsRound (d * 1000)) else probeDurationStream env
    | _ => probeDurationStream env

/-- Strategy 1 yields no usable duration: the format metadata parse threw,
the duration was missing or non-finite, or it was non-positive. -/
def fmtMiss (env : ProbeEnv) : Prop :=
  ∀ d, env.formatDuration = some (some d) → d ≤ 0

/-- Strategy 2 yields no usable duration. -/
def streamMiss (env : ProbeEnv) : Prop :=
  ∀ d, env.streamStep = some (some d) → d ≤ 0

/-- Strategy 3 yields no duration: the decode command threw or no timestamp
matched in the diagnostic output. -/
def decodeMiss (env : ProbeEnv) : Prop :=
  env.decodeStep = none ∨ env.decodeStep = some none

/-! ### Transcription options (`normalizeTranscriptionOptions`,
media-chunker.ts:340-365) -/

/-- The request-level `MediaTranscriptionOptions` type
(media-chunker.ts:80-87): note it has *no* `engine` field. -/
structure MediaTranscriptionOptions where
  enabled : Option Bool
  modelPath : Option String
  language : Option String
  sampleRate : Option ℚ
  maxAlternatives : Option ℚ
  enableWords : Option Bool

/-- The two engines of the `NormalizedTranscriptionOptions.engine` union. -/
inductive TranscriptionEngine where
  | whisper
  | vosk
  deriving DecidableEq, Repr

/-- `NormalizedTranscriptionOptions` (media-chunker.ts:142-151).  `modelName`
and `language` are optional in the source type but always populated by
normalization, so they are plain strings here. -/
structure NormalizedTranscriptionOptions where
  enabled : Bool
  engine : TranscriptionEngine
  modelPath : Option String
  modelName : String
  language : String
  sampleRate : ℚ
  maxAlternatives : ℚ
  enableWords : Bool

/-- JavaScript whitespace characters relevant to `trim`, `\s` and `split`. -/
def isJsSpace (c : Char) : Bool :=
  c == ' ' || c == '\t' || c == '\n' || c == '\r' || c == '\x0b' || c == '\x0c'

/-- JavaScript `String.prototype.trim`. -/
def jsTrim (s : String) : String :=
  String.mk (((s.toList.dropWhile isJsSpace).reverse.dropWhile isJsSpace).reverse)

/-- `DEFAULT_TRANSCRIPTION_OPTIONS` (media-chunker.ts:181-190). -/
def DEFAULT_TRANSCRIPTION_OPTIONS : NormalizedTranscriptionOptions :=
  { enabled := false, engine := .whisper, modelPath := none, modelName := "medium",
    language := "auto", sampleRate := 16000, maxAlternatives := 0, enableWords := true }

/-- `normalizeTranscriptionOptions(options)`.  `resolve` models
`path.resolve` (a string-to-string function of the process working
directory).  The `engine` field is hard-coded to `'whisper'`. -/
def normalizeTranscriptionOptions (resolve : String → String)
    (options : Option MediaTranscriptionOptions) : NormalizedTranscriptionOptions :=
  match options with
  | none => DEFAULT_TRANSCRIPTION_OPTIONS
  | some o =>
    let requestModel : Option String := o.modelPath.map jsTrim
    { enabled := o.enabled.getD false
      engine := .whisper
      modelPath :=
        match requestModel with
        | some m => if m = "" then none else some (resolve m)
        | none => none
      modelName := DEFAULT_TRANSCRIPTION_OPTIONS.modelName
      language := o.language.getD DEFAULT_TRANSCRIPTION_OPTIONS.language
      sampleRate :=
        match o.sampleRate with
        | some r => if 0 < r then r else DEFAULT_TRANSCRIPTION_OPTIONS.sampleRate
        | none => DEFAULT_TRANSCRIPTION_OPTIONS.sampleRate
      maxAlternatives :=
        match o.maxAlternatives with
        | some m => if 0 ≤ m then m else DEFAULT_TRANSCRIPTION_OPTIONS.maxAlternatives
        | none => DEFAULT_TRANSCRIPTION_OPTIONS.maxAlternatives
      enableWords := o.enableWords.getD DEFAULT_TRANSCRIPTION_OPTIONS.enableWords }

/-! ### Transcription Orchestrator (`transcribeChunkExports`,
`transcribeWithWhisper`, media-chunker.ts:797-883) -/

/-- A chunk export handed to the transcription stage. -/
structure MediaChunkExport where
  id : String
  wavPath : String
  deriving DecidableEq, Repr

/-- A word-level transcription entry. -/
structure MediaChunkTranscriptionWord where
  word : String
  startSec : ℚ
  endSec : ℚ
  confidence : Option ℚ
  deriving DecidableEq, Repr

/-- A per-chunk transcription result (`rawResult` is omitted: it stores the
engine's raw payload and carries no behaviour). -/
structure MediaChunkTranscription where
  chunkId : String
  text : String
  confidence : Option ℚ
  words : List MediaChunkTranscriptionWord
  error : Option String
  deriving DecidableEq, Repr

/-- A timestamped fragment from the whisper engine (`WhisperTranscriptSegment`
of the source; `end` is a reserved word, hence `endTime`). -/
structure WhisperTranscriptSegment where
  start : String
  endTime : String
  speech : String
  deriving DecidableEq, Repr

/-- The ways `WhisperService.transcribe` throws: the pre-flight existence
check, or the wrap-and-rethrow of any inner failure (`none` models a thrown
non-`Error` value, giving `'Unknown error'`). -/
inductive WhisperFailure where
  | fileNotFound (path : String)
  | wrapped (inner : Option String)

/-- The `message` of the `Error` thrown by `WhisperService.transcribe`. -/
def whisperErrorMessage : WhisperFailure → String
  | .fileNotFound p => "Audio file not found: " ++ p
  | .wrapped inner => "Transcription failed: " ++ inner.getD "Unknown error"

/-- JavaScript `parseInt(s, 10)` on a known-digits string and `parseFloat` on
a known decimal string are not re-modelled character by character; the word
distribution below keeps the already-parsed per-fragment second values
abstracted through `parseTs`, the model of `parseTimestampToSeconds`. -/
def splitWs (s : String) : List String :=
  ((s.toList.splitOnP fun c => isJsSpace c).map String.mk).filter fun w => w ≠ ""

/-- The word list built from whisper fragments when `enableWords` is on:
per fragment, split the speech on whitespace and distribute the fragment's
time equally across the words (media-chunker.ts:839-860).  `parseTs` models
`parseTimestampToSeconds`. -/
def buildWhisperWords (parseTs : String → ℚ) (segs : List WhisperTranscriptSegment) :
    List MediaChunkTranscriptionWord :=
  segs.flatMap fun seg =>
    let startSec := parseTs seg.start
    let endSec := parseTs seg.endTime
    let segmentWords := splitWs seg.speech
    let timePerWord := (endSec - startSec) / max 1 (segmentWords.length : ℚ)
    (List.range segmentWords.length).zipWith
      (fun i w =>
        { word := w, startSec := startSec + i * timePerWord,
          endSec := startSec + (i + 1) * timePerWord, confidence := none })
      segmentWords

/-- `transcribeWithWhisper(chunkExports, options)`: process the chunks in
order; a per-chunk engine failure is converted into a result with `error`
set, empty `text` and empty `words`, and never aborts the loop.  `engine`
models `whisperService.transcribe` on one chunk. -/
def transcribeWithWhisper
    (engine : MediaChunkExport → Except WhisperFailure (List WhisperTranscriptSegment))
    (parseTs : String → ℚ) (enableWords : Bool) (chunkExports : List MediaChunkExport) :
    List MediaChunkTranscription :=
  chunkExports.map fun chunk =>
    match engine chunk with
    | .ok segs =>
      { chunkId := chunk.id, text := " ".intercalate (segs.map fun s => s.speech),
        confidence := none,
        words := if enableWords then buildWhisperWords parseTs segs else [],
        error := none }
    | .error f =>
      { chunkId := chunk.id, text := "", confidence := none, words := [],
        error := some (whisperErrorMessage f) }

/-- `transcribeChunkExports(chunkExports, options)` (media-chunker.ts:797-806):
dispatch on the configured engine.  The two branches are passed as functions
(`whisperRun` = `transcribeWithWhisper`, `voskRun` = `transcribeWithVosk`). -/
def transcribeChunkExports
    (whisperRun voskRun :
      NormalizedTranscriptionOptions → List MediaChunkExport → List MediaChunkTranscription)
    (options : NormalizedTranscriptionOptions) (chunkExports : List MediaChunkExport) :
    List MediaChunkTranscription :=
  if options.engine = .whisper then whisperRun options chunkExports
  else voskRun options chunkExports

/-! ### Whisper fragment post-processing (`WhisperService.transcribe`,
src/main/index.ts:323-518: the service copy with `WHISPER_METADATA_PATTERNS`) -/

/-- Case-insensitive character comparison (the `i` regex flag). -/
def lowerEq (a b : Char) : Bool := a.toLower == b.toLower

/-- Match a literal token case-insensitively at the head of the input,
returning the rest on success. -/
def matchToken : List Char → List Char → Option (List Char)
  | [], rest => some rest
  | _ :: _, [] => none
  | t :: ts, c :: cs => if lowerEq t c then matchToken ts cs else none

/-- ASCII letter (what `[A-Z]` matches under the `i` flag). -/
def isAsciiLetter (c : Char) : Bool :=
  ('A' ≤ c && c ≤ 'Z') || ('a' ≤ c && c ≤ 'z')

/-- The pattern `\[_[A-Z]+\]` (internal `[_TT_xxx]`-style tokens). -/
def matchUnderscoreTag : List Char → Option (List Char)
  | '[' :: '_' :: rest =>
    (match rest.dropWhile isAsciiLetter with
     | ']' :: tl => if (rest.takeWhile isAsciiLetter).isEmpty then none else some tl
     | _ => none)
  | _ => none

/-- First alternative of a regex alternation that matches. -/
def matchFirst (toks : List (List Char)) (cs : List Char) : Option (List Char) :=
  match toks with
  | [] => none
  | t :: ts =>
    match matchToken t cs with
    | some rest => some rest
    | none => matchFirst ts cs

/-- The language alternatives of the language-tag pattern. -/
def whisperLanguageWords : List (List Char) :=
  ["French", "English", "Spanish", "German", "Italian", "Portuguese", "Dutch",
    "Japanese", "Chinese", "Korean", "Russian", "Arabic"].map String.toList

/-- The kind alternatives of the language-tag pattern. -/
def whisperTagKindWords : List (List Char) :=
  ["translation", "speech", "audio"].map String.toList

/-- The language-tag pattern
`\[\s*(French|...)\s+(translation|speech|audio)\s*\]`. -/
def matchLangTag : List Char → Option (List Char)
  | '[' :: rest =>
    (match matchFirst whisperLanguageWords (rest.dropWhile isJsSpace) with
     | none => none
     | some r2 =>
       if (r2.takeWhile isJsSpace).isEmpty then none
       else
         match matchFirst whisperTagKindWords (r2.dropWhile isJsSpace) with
         | none => none
         | some r4 =>
           match r4.dropWhile isJsSpace with
           | ']' :: tl => some tl
           | _ => none)
  | _ => none

/-- Global regex replacement by the empty string: scan left to right, drop a
match and continue after it, else keep one character and continue.  One unit
of fuel is spent per step and every matcher used here consumes at least one
character on success, so `fuel = length` below is always sufficient. -/
def replaceAllGo (m : List Char → Option (List Char)) : ℕ → List Char → List Char
  | 0, cs => cs
  | _ + 1, [] => []
  | fuel + 1, c :: rest =>
    match m (c :: rest) with
    | some rest2 => replaceAllGo m fuel rest2
    | none => c :: replaceAllGo m fuel rest

/-- `str.replace(pattern, '')` with a global flag. -/
def replaceAll (m : List Char → Option (List Char)) (cs : List Char) : List Char :=
  replaceAllGo m cs.length cs

/-- `.replace(/\s+/g, ' ')`: collapse every whitespace run to one space.  The
flag records whether the previous character belonged to a run. -/
def squashAux : Bool → List Char → List Char
  | _, [] => []
  | inRun, c :: rest =>
    if isJsSpace c then
      if inRun then squashAux true rest else ' ' :: squashAux true rest
    else c :: squashAux false rest

/-- `WHISPER_METADATA_PATTERNS` (index.ts:324-333), in source order. -/
def whisperMetadataMatchers : List (List Char → Option (List Char)) :=
  [matchToken "[BLANK_AUDIO]".toList, matchToken "[SOUND]".toList,
    matchToken "[MUSIC]".toList, matchToken "[NOISE]".toList,
    matchToken "[SILENCE]".toList, matchToken "[INAUDIBLE]".toList,
    matchUnderscoreTag, matchLangTag]

/-- `filterWhisperMetadata(text)`: delete every pattern occurrence, collapse
whitespace, trim. -/
def filterWhisperMetadata (s : String) : String :=
  jsTrim (String.mk (squashAux false
    (whisperMetadataMatchers.foldl (fun cs m => replaceAll m cs) s.toList)))

/-- The punctuation class `[.,!?;:]` of the two spacing regexes. -/
def isPunct (c : Char) : Bool :=
  c == '.' || c == ',' || c == '!' || c == '?' || c == ';' || c == ':'

/-- `.replace(/\s+([.,!?;:])/g, '$1')`: drop a whitespace run immediately
preceding a punctuation character.  Fuel as in `replaceAllGo`. -/
def sbpGo : ℕ → List Char → List Char
  | 0, cs => cs
  | _ + 1, [] => []
  | fuel + 1, c :: rest =>
    if isJsSpace c then
      match (c :: rest).dropWhile isJsSpace with
      | p :: tl =>
        if isPunct p then p :: sbpGo fuel tl
        else (c :: rest).takeWhile isJsSpace ++ sbpGo fuel ((c :: rest).dropWhile isJsSpace)
      | [] => (c :: rest).takeWhile isJsSpace
    else c :: sbpGo fuel rest

/-- `.replace(/([.,!?;:])\s*/g, '$1 ')`: one space after each punctuation
character, absorbing any following whitespace run. -/
def sapGo : ℕ → List Char → List Char
  | 0, cs => cs
  | _ + 1, [] => []
  | fuel + 1, c :: rest =>
    if isPunct c then c :: ' ' :: sapGo fuel (rest.dropWhile isJsSpace)
    else c :: sapGo fuel rest

/-- The joined-text normalization chain of `transcribe` (index.ts:477-482):
collapse whitespace, strip space before punctuation, ensure space after
punctuation, trim. -/
def normalizeJoined (raw : String) : String :=
  let s1 := squashAux false raw.toList
  let s2 := sbpGo s1.length s1
  jsTrim (String.mk (sapGo s2.length s2))

/-- A raw whisper result entry (`result.transcription[i]`): `text` is `some`
when the field is a string, `tsFrom`/`tsTo` are `item.timestamps?.from/.to`. -/
structure TranscriptionItem where
  text : Option String
  tsFrom : Option String
  tsTo : Option String

/-- JavaScript `a || d` on an optional string: the empty string is falsy. -/
def jsOrDefault (v : Option String) (d : String) : String :=
  match v with
  | some s => if s = "" then d else s
  | none => d

/-- The fragment-collection loop of `transcribe` (index.ts:449-471): trim
each entry's text, filter metadata patterns, skip entries left empty, default
missing timestamps. -/
def collectSegments (items : List TranscriptionItem) : List WhisperTranscriptSegment :=
  items.foldr
    (fun it acc =>
      let text := filterWhisperMetadata (jsTrim (it.text.getD ""))
      if text = "" then acc
      else
        ⟨jsOrDefault it.tsFrom "00:00:00.000", jsOrDefault it.tsTo "00:00:00.000", text⟩ :: acc)
    []

/-- The combining step of `transcribe` (index.ts:473-498): when any fragments
survive filtering, join their texts, normalize spacing, and return one
segment from the first survivor's start to the last survivor's end; otherwise
return the empty list. -/
def combineTranscription (items : List TranscriptionItem) : List WhisperTranscriptSegment :=
  match collectSegments items with
  | [] => []
  | first :: rest =>
    let fullText := normalizeJoined (" ".intercalate ((first :: rest).map fun s => s.speech))
    [⟨first.start, ((first :: rest).getLast (List.cons_ne_nil _ _)).endTime, jsTrim fullText⟩]

/-! ### Spec-side definition for the inversion step (§4.3 step 1) -/

/-- Stated from the spec's words: walk silence intervals left to right with a
cursor; whenever a silence's clamped start exceeds the cursor, emit
`[cursor, silenceStart)`; advance the cursor to `max(cursor, silenceEnd)`;
after the loop, emit a trailing segment to the end if the cursor is below it. -/
def invertSpecGo (clampedD : ℚ) (cursor : ℚ) : List Seg → List Seg
  | [] => if cursor < clampedD then [⟨cursor, clampedD⟩] else []
  | sil :: rest =>
    let s := min (max 0 sil.startMs) clampedD
    let e := min (max 0 sil.endMs) clampedD
    if cursor < s then ⟨cursor, s⟩ :: invertSpecGo clampedD (max cursor e) rest
    else invertSpecGo clampedD (max cursor e) rest

/-- The spec-side inversion pass, to be compared with `invertSilences`. -/
def invertSilencesSpec (durationMs : ℚ) (silences : List Seg) : List Seg :=
  invertSpecGo (max 0 durationMs) 0 silences

/-! ### Segment construction as one function (for the determinism claim) -/

/-- Segment construction as run by `analyze`: builder followed by the
constraint enforcer on the same `(durationMs, silences, options)` tuple. -/
def segmentConstruction (durationMs : ℚ) (silences : List Seg) (opts : Options) : List Seg :=
  enforceDurationConstraints (buildSpeechSegments durationMs silences opts) opts durationMs

/-! ### Concrete option sets used by scenario claims -/

/-- `DEFAULT_OPTIONS` (media-chunker.ts:172-179). -/
def DEFAULT_OPTIONS : Options :=
  { silenceThresholdDb := -40, minSilenceDurationMs := 1000, paddingBeforeMs := 200,
    paddingAfterMs := 300, minChunkDurationMs := 500, maxChunkDurationMs := 600000 }

/-- The basic-split scenario's options: zero padding, otherwise defaults. -/
def optsBasicSplit : Options :=
  { DEFAULT_OPTIONS with paddingBeforeMs := 0, paddingAfterMs := 0 }

/-- The max-split scenario's options: `minChunkDurationMs = 1000`,
`maxChunkDurationMs = 10000`. -/
def optsMaxSplit : Options :=
  { DEFAULT_OPTIONS with minChunkDurationMs := 1000, maxChunkDurationMs := 10000 }

/-- Adversarial options for the rounding-collision counterexample: zero
padding, `minChunkDurationMs = 0`, `maxChunkDurationMs = 10000`. -/
def optsRoundingCollision : Options :=
  { DEFAULT_OPTIONS with
    paddingBeforeMs := 0
    paddingAfterMs := 0
    minChunkDurationMs := 0
    maxChunkDurationMs := 10000 }

/-- Adversarial options with `minChunkDurationMs > maxChunkDurationMs` (no
normalization step forbids this): zero padding, minimum 5000, maximum 1000. -/
def optsMinOverMax : Options :=
  { DEFAULT_OPTIONS with
    paddingBeforeMs := 0
    paddingAfterMs := 0
    minChunkDurationMs := 5000
    maxChunkDurationMs := 1000 }

/-! ### Invariant predicates for the enforcer development -/

/-- A segment lying inside the media range `[0, D]` with ordered endpoints. -/
def InB (D : ℚ) (s : Seg) : Prop :=
  0 ≤ s.startMs ∧ s.startMs ≤ s.endMs ∧ s.endMs ≤ D

/-- What the minimum-duration pass guarantees for a surviving segment: the
minimum is met, or the segment sits at a media boundary with span at least
`min minC D` (growth clamped by the media range). -/
def MinAdjusted (minC D : ℚ) (s : Seg) : Prop :=
  minC ≤ span s ∨ (s.startMs = 0 ∧ min minC D ≤ span s) ∨
    (s.endMs = D ∧ min minC D ≤ span s)

/-- What the maximum-duration pass guarantees for a final chunk: in bounds,
positive, at most `maxC` long except a merged remainder (strictly below
`maxC + minC`), meeting the minimum unless it is a full window, a merged
remainder, or a boundary segment, and never shorter than
`min minC (min maxC D)`. -/
def ChunkOk (minC maxC D : ℚ) (c : Seg) : Prop :=
  InB D c ∧ 0 < span c ∧ (span c ≤ maxC ∨ span c < maxC + minC) ∧
    (minC ≤ span c ∨ span c = maxC ∨ maxC < span c ∨ c.startMs = 0 ∨ c.endMs = D) ∧
    min minC (min maxC D) ≤ span c

/-! ### Basic rewriting lemmas -/

/-- Unfolding `splitGo` when the loop runs once more. -/
theorem splitGo_step {maxC cur e : ℚ} (acc : List Seg) (h1 : 0 < maxC)
    (h2 : maxC < e - cur) :
    splitGo maxC acc cur e = splitGo maxC (⟨cur, cur + maxC⟩ :: acc) (cur + maxC) e := by
  rw [splitGo]
  simp [h1, h2]

/-- Unfolding `splitGo` when the loop exits. -/
theorem splitGo_stop {maxC cur e : ℚ} (acc : List Seg) (h : ¬(0 < maxC ∧ maxC < e - cur)) :
    splitGo maxC acc cur e = (acc, cur) := by
  rw [splitGo]
  simp only [h, dite_false]

/-- Auxiliary to the inversion refinement: the source's fold with a reversed
accumulator computes the spec-side walk. -/
theorem invertFold_eq_spec (clampedD : ℚ) :
    ∀ (l : List Seg) (cursor : ℚ) (acc : List Seg),
      (if (l.foldl (invertStep clampedD) (cursor, acc)).1 < clampedD then
          (⟨(l.foldl (invertStep clampedD) (cursor, acc)).1, clampedD⟩ : Seg) ::
            (l.foldl (invertStep clampedD) (cursor, acc)).2
        else (l.foldl (invertStep clampedD) (cursor, acc)).2).reverse
        = acc.reverse ++ invertSpecGo clampedD cursor l := by
  intro l
  induction l with
  | nil =>
    intro cursor acc
    by_cases h : cursor < clampedD <;> simp [invertSpecGo, h]
  | cons sil rest ih =>
    intro cursor acc
    by_cases h : cursor < min (max 0 sil.startMs) clampedD <;>
      simp only [List.foldl_cons, invertStep, invertSpecGo, h, if_true, if_false] <;>
      rw [ih] <;> simp [h]

/-- C6: the segment builder's inversion step walks the silences left to right
with a cursor from 0, emits `[cursor, silenceStart)` when a silence's clamped
start exceeds the cursor, advances the cursor to `max(cursor, silenceEnd)`,
and emits a trailing segment to `durationMs` when the cursor ends below it
(proved as equality with the spec-side walk); on `durationMs = 10000`, the
single silence `{2000, 3000}` and zero padding it yields exactly `[0, 2000]`
and `[3000, 10000]`. -/
theorem C6_invert_walk_and_basic_split :
    (∀ (durationMs : ℚ) (silences : List Seg),
        invertSilences durationMs silences = invertSilencesSpec durationMs silences) ∧
      buildSpeechSegments 10000 [⟨2000, 3000⟩] optsBasicSplit = [⟨0, 2000⟩, ⟨3000, 10000⟩] := by
  constructor
  · intro D sils
    have h := invertFold_eq_spec (max 0 D) sils 0 []
    simpa [invertSilences, invertSilencesSpec] using h
  · norm_num [optsBasicSplit, DEFAULT_OPTIONS, buildSpeechSegments, invertSilences,
      invertStep, padSegments, mergeGo, List.foldl, List.filter, min_def, max_def]

/-- C7: on the single segment `[0, 25000]` with `maxChunkDurationMs = 10000`
and `minChunkDurationMs = 1000`, the duration constraint enforcer returns
exactly `[0, 10000]`, `[10000, 20000]`, `[20000, 25000]`: the 5000 ms
remainder meets the minimum and stays standalone. -/
theorem C7_max_split_scenario :
    enforceDurationConstraints [⟨0, 25000⟩] optsMaxSplit 25000 =
      [⟨0, 10000⟩, ⟨10000, 20000⟩, ⟨20000, 25000⟩] := by
  norm_num [optsMaxSplit, DEFAULT_OPTIONS, enforceDurationConstraints, minPass, minPassStep,
    adjustSegment, maxPass, maxPassStep, splitGo_step, splitGo_stop, List.foldl,
    min_def, max_def]

/-- C9: segment construction is deterministic: the builder followed by the
constraint enforcer is a pure function of the
`(durationMs, silences, options)` tuple, so equal inputs give identical
segment boundary lists. -/
theorem C9_segment_construction_deterministic
    (D1 D2 : ℚ) (s1 s2 : List Seg) (o1 o2 : Options)
    (hD : D1 = D2) (hs : s1 = s2) (ho : o1 = o2) :
    segmentConstruction D1 s1 o1 = segmentConstruction D2 s2 o2 := by
  rw [hD, hs, ho]

/-- Witness for C9 at a concrete input. -/
theorem C9_witness :
    segmentConstruction 10000 [⟨2000, 3000⟩] optsBasicSplit =
      segmentConstruction 10000 [⟨2000, 3000⟩] optsBasicSplit :=
  C9_segment_construction_deterministic 10000 10000 [⟨2000, 3000⟩] [⟨2000, 3000⟩]
    optsBasicSplit optsBasicSplit rfl rfl rfl

/-- C1 counterexample: a failure while computing the duration *can* propagate
to the caller — the very first metadata command (`runCommand` on ffprobe's
format query, media-chunker.ts:406) is awaited outside every `try` block, so
its rejection rejects `probeDuration`. -/
theorem C1_counterexample_first_command_failure_propagates :
    probeDuration ⟨.error "ffprobe exited with code 1", none, none, none⟩ =
      .error "ffprobe exited with code 1" := rfl

/-- The never-rejects and degrade-to-zero core of the amended C1. -/
theorem C1_probe_cascade (env : ProbeEnv) (h : env.formatCmd = .ok ()) :
    (∃ n, probeDuration env = .ok n) ∧
      (fmtMiss env → streamMiss env → decodeMiss env → probeDuration env = .ok 0) := by
  have hdec : (∃ n, probeDurationDecode env = .ok n) ∧
      (decodeMiss env → probeDurationDecode env = .ok 0) := by
    rcases hd : env.decodeStep with _ | od
    · exact ⟨⟨0, by simp [probeDurationDecode, hd]⟩, fun _ => by simp [probeDurationDecode, hd]⟩
    · rcases od with _ | t
      · exact ⟨⟨0, by simp [probeDurationDecode, hd]⟩, fun _ => by simp [probeDurationDecode, hd]⟩
      · refine ⟨⟨jsRound (t * 1000), by simp [probeDurationDecode, hd]⟩, ?_⟩
        rintro (h1 | h1) <;> rw [hd] at h1 <;> cases h1
  have hstr : (∃ n, probeDurationStream env = .ok n) ∧
      (streamMiss env → decodeMiss env → probeDurationStream env = .ok 0) := by
    rcases hs : env.streamStep with _ | od
    · exact ⟨by simpa [probeDurationStream, hs] using hdec.1,
        fun _ hm => by simpa [probeDurationStream, hs] using hdec.2 hm⟩
    · rcases od with _ | d
      · exact ⟨by simpa [probeDurationStream, hs] using hdec.1,
          fun _ hm => by simpa [probeDurationStream, hs] using hdec.2 hm⟩
      · by_cases hpos : 0 < d
        · refine ⟨⟨jsRound (d * 1000), by simp [probeDurationStream, hs, hpos]⟩, ?_⟩
          intro hm _
          exact absurd hpos (not_lt.mpr (hm d hs))
        · exact ⟨by simpa [probeDurationStream, hs, hpos] using hdec.1,
            fun _ hm => by simpa [probeDurationStream, hs, hpos] using hdec.2 hm⟩
  rcases hf : env.formatDuration with _ | od
  · exact ⟨by simpa [probeDuration, h, hf] using hstr.1,
      fun _ hm hm2 => by simpa [probeDuration, h, hf] using hstr.2 hm hm2⟩
  · rcases od with _ | d
    · exact ⟨by simpa [probeDuration, h, hf] using hstr.1,
        fun _ hm hm2 => by simpa [probeDuration, h, hf] using hstr.2 hm hm2⟩
    · by_cases hpos : 0 < d
      · refine ⟨⟨jsRound (d * 1000), by simp [probeDuration, h, hf, hpos]⟩, ?_⟩
        intro hm _ _
        exact absurd hpos (not_lt.mpr (hm d hf))
      · exact ⟨by simpa [probeDuration, h, hf, hpos] using hstr.1,
          fun hm hm2 hm3 => by simpa [probeDuration, h, hf, hpos] using hstr.2 hm2 hm3⟩

/-- C1 (amended): provided the first format-metadata command itself resolves,
`probeDuration` never rejects: each strategy that fails or yields a
non-finite or non-positive value falls through to the next, a successful
strategy's duration (seconds, times 1000 and rounded) is returned in
first-success-wins order, and after all three the result degrades to `ok 0`. -/
theorem C1_probe_duration_degrades (env : ProbeEnv) (h : env.formatCmd = .ok ()) :
    ((∃ n, probeDuration env = .ok n) ∧
        (fmtMiss env → streamMiss env → decodeMiss env → probeDuration env = .ok 0)) ∧
      (∀ d, env.formatDuration = some (some d) → 0 < d →
        probeDuration env = .ok (jsRound (d * 1000))) ∧
      (fmtMiss env → ∀ d, env.streamStep = some (some d) → 0 < d →
        probeDuration env = .ok (jsRound (d * 1000))) ∧
      (fmtMiss env → streamMiss env → ∀ t, env.decodeStep = some (some t) →
        probeDuration env = .ok (jsRound (t * 1000))) := by
  refine ⟨?_, ?_, ?_, ?_⟩
  · exact C1_probe_cascade env h
  · intro d hd hdpos
    simp [probeDuration, h, hd, hdpos]
  · intro hm d hd hdpos
    have hfmt : ∀ x, env.formatDuration = some (some x) →
        probeDuration env = probeDurationStream env ∨ False := by
      intro x hx
      exact Or.inl (by simp [probeDuration, h, hx, not_lt.mpr (hm x hx)])
    have hred : probeDuration env = probeDurationStream env := by
      rcases hf : env.formatDuration with _ | od
      · simp [probeDuration, h, hf]
      · rcases od with _ | x
        · simp [probeDuration, h, hf]
        · simp [probeDuration, h, hf, not_lt.mpr (hm x hf)]
    rw [hred]
    simp [probeDurationStream, hd, hdpos]
  · intro hm hs t ht
    have hred : probeDuration env = probeDurationStream env := by
      rcases hf : env.formatDuration with _ | od
      · simp [probeDuration, h, hf]
      · rcases od with _ | x
        · simp [probeDuration, h, hf]
        · simp [probeDuration, h, hf, not_lt.mpr (hm x hf)]
    have hred2 : probeDurationStream env = probeDurationDecode env := by
      rcases hg : env.streamStep with _ | od
      · simp [probeDurationStream, hg]
      · rcases od with _ | x
        · simp [probeDurationStream, hg]
        · simp [probeDurationStream, hg, not_lt.mpr (hs x hg)]
    rw [hred, hred2]
    simp [probeDurationDecode, ht]

/-- Witness for C1 at a concrete environment where every strategy misses. -/
theorem C1_witness :
    (∃ n, probeDuration ⟨.ok (), none, none, none⟩ = .ok n) ∧
      probeDuration ⟨.ok (), none, none, none⟩ = .ok 0 := by
  have h := C1_probe_duration_degrades ⟨.ok (), none, none, none⟩ rfl
  refine ⟨h.1.1, h.1.2 ?_ ?_ ?_⟩
  · intro d hd
    cases hd
  · intro d hd
    cases hd
  · exact .inl rfl

/-- C10: the normalization step hard-codes the engine to `'whisper'` for
every transcription options input (including `undefined`) — the request-level
options type has no engine field — so the per-chunk dispatch always takes the
whisper branch and the Vosk branch is unreachable through `analyze`. -/
theorem C10_engine_always_whisper
    (resolve : String → String) (o : Option MediaTranscriptionOptions)
    (whisperRun voskRun :
      NormalizedTranscriptionOptions → List MediaChunkExport → List MediaChunkTranscription)
    (chunks : List MediaChunkExport) :
    (normalizeTranscriptionOptions resolve o).engine = .whisper ∧
      transcribeChunkExports whisperRun voskRun (normalizeTranscriptionOptions resolve o) chunks
        = whisperRun (normalizeTranscriptionOptions resolve o) chunks := by
  have he : (normalizeTranscriptionOptions resolve o).engine = .whisper := by
    cases o <;> rfl
  exact ⟨he, by simp [transcribeChunkExports, he]⟩

/-- C8: if engine processing throws for chunk `k`, results for all other
chunks are still produced in the original chunk order, and result `k` has a
non-empty error, empty text and empty words; a per-chunk failure never aborts
the remaining chunks. -/
theorem C8_transcription_resilience
    (engine : MediaChunkExport → Except WhisperFailure (List WhisperTranscriptSegment))
    (parseTs : String → ℚ) (enableWords : Bool) (chunks : List MediaChunkExport)
    (k : ℕ) (f : WhisperFailure) (chunk : MediaChunkExport)
    (hk : chunks.get? k = some chunk) (hf : engine chunk = .error f) :
    (transcribeWithWhisper engine parseTs enableWords chunks).length = chunks.length ∧
      (∀ j, ((transcribeWithWhisper engine parseTs enableWords chunks).get? j).map
          (fun r => r.chunkId) = (chunks.get? j).map fun c => c.id) ∧
      (transcribeWithWhisper engine parseTs enableWords chunks).get? k =
        some ⟨chunk.id, "", none, [], some (whisperErrorMessage f)⟩ ∧
      whisperErrorMessage f ≠ "" ∧
      (∀ j c segs, chunks.get? j = some c → engine c = .ok segs →
        ((transcribeWithWhisper engine parseTs enableWords chunks).get? j).map
          (fun r => r.error) = some none) := by
  refine ⟨List.length_map _ _, ?_, ?_, ?_, ?_⟩
  · intro j
    rw [transcribeWithWhisper, List.get?_map]
    cases hj : chunks.get? j with
    | none => rfl
    | some c => cases hc : engine c <;> simp [hc]
  · rw [transcribeWithWhisper, List.get?_map, hk]
    simp [hf]
  · intro hemp
    have hlen := congrArg String.length hemp
    cases f <;> simp [whisperErrorMessage, String.length_append] at hlen <;>
      exact absurd hlen.1 (by decide)
  · intro j c segs hj hsegs
    rw [transcribeWithWhisper, List.get?_map, hj]
    simp [hsegs]

/-- Witness for C8: one chunk whose engine call fails. -/
theorem C8_witness :
    (transcribeWithWhisper (fun _ => .error (.wrapped none)) (fun _ => 0) true
        [⟨"chunk-1", "a.wav"⟩]).get? 0 =
      some ⟨"chunk-1", "", none, [], some "Transcription failed: Unknown error"⟩ :=
  (C8_transcription_resilience (fun _ => .error (.wrapped none)) (fun _ => 0) true
    [⟨"chunk-1", "a.wav"⟩] 0 (.wrapped none) ⟨"chunk-1", "a.wav"⟩ rfl rfl).2.2.1

/-- C3 counterexample: a non-empty fragment list whose every fragment is a
non-speech marker yields the *empty* list, not a single combined result. -/
theorem C3_counterexample_all_fragments_filtered :
    combineTranscription [⟨some "[MUSIC]", some "00:00:01.000", some "00:00:02.000"⟩] = [] ∧
      ([⟨some "[MUSIC]", some "00:00:01.000", some "00:00:02.000"⟩] :
        List TranscriptionItem) ≠ [] := by
  exact ⟨rfl, by simp⟩

/-- C3 (amended): whenever at least one fragment survives the non-speech
marker filtering, the orchestrator joins the surviving texts, normalizes
whitespace and punctuation spacing, and returns a single combined result
whose start is the first survivor's start and whose end is the last
survivor's end. -/
theorem C3_whisper_combine_survivors (items : List TranscriptionItem)
    (first : WhisperTranscriptSegment) (rest : List WhisperTranscriptSegment)
    (h : collectSegments items = first :: rest) :
    combineTranscription items =
      [⟨first.start, ((first :: rest).getLast (List.cons_ne_nil _ _)).endTime,
        jsTrim (normalizeJoined (" ".intercalate ((first :: rest).map fun s => s.speech)))⟩] := by
  simp only [combineTranscription, h]

/-- Witness for C3 at a concrete surviving fragment. -/
theorem C3_witness :
    collectSegments [⟨some " hello   world ", some "00:00:01.000", some "00:00:02.000"⟩] =
        [⟨"00:00:01.000", "00:00:02.000", "hello world"⟩] ∧
      combineTranscription [⟨some " hello   world ", some "00:00:01.000", some "00:00:02.000"⟩] =
        [⟨"00:00:01.000", "00:00:02.000", "hello world"⟩] := by
  have h : collectSegments
      [⟨some " hello   world ", some "00:00:01.000", some "00:00:02.000"⟩] =
      [⟨"00:00:01.000", "00:00:02.000", "hello world"⟩] := rfl
  refine ⟨h, ?_⟩
  rw [C3_whisper_combine_survivors _ _ _ h]
  rfl

/-- C4 counterexample: with sub-millisecond constraint parameters
(`minChunkDurationMs = 0`) and fractional silence boundaries, two final
chunks share the rounded start 0, so the final chunk list is *not* strictly
ascending by `startMs`. -/
theorem C4_counterexample_rounding_collision :
    analyzeChunks 10000 [⟨2/5, 9/20⟩] optsRoundingCollision =
        [⟨"chunk-1", 0, 0, 0⟩, ⟨"chunk-2", 0, 10000, 10000⟩] ∧
      ¬ List.Chain' (fun a b => a.startMs < b.startMs)
          (analyzeChunks 10000 [⟨2/5, 9/20⟩] optsRoundingCollision) := by
  have h : analyzeChunks 10000 [⟨2/5, 9/20⟩] optsRoundingCollision =
      [⟨"chunk-1", 0, 0, 0⟩, ⟨"chunk-2", 0, 10000, 10000⟩] := by
    norm_num [optsRoundingCollision, DEFAULT_OPTIONS, analyzeChunks, buildSpeechSegments,
      invertSilences, invertStep, padSegments, mergeGo, enforceDurationConstraints, minPass,
      minPassStep, adjustSegment, maxPass, maxPassStep, splitGo_step, splitGo_stop,
      assignChunkIds, mkChunk, jsRound, List.foldl, List.filter, min_def, max_def]
    decide
  refine ⟨h, ?_⟩
  rw [h]
  simp [List.chain'_cons]

/-- C5 counterexample: with `minChunkDurationMs > maxChunkDurationMs` (which
no normalization step forbids), the maximum-duration pass produces interior
segments shorter than the minimum: from the built segment `[5000, 17000]`
the enforcer emits `[6000, 7000]`, which touches neither 0 nor
`durationMs = 20000` and has span 1000 < 5000. -/
theorem C5_counterexample_min_over_max :
    segmentConstruction 20000 [⟨0, 5000⟩, ⟨17000, 20000⟩] optsMinOverMax =
        [⟨5000, 6000⟩, ⟨6000, 7000⟩, ⟨7000, 8000⟩, ⟨8000, 9000⟩, ⟨9000, 10000⟩,
          ⟨10000, 11000⟩, ⟨11000, 12000⟩, ⟨12000, 13000⟩, ⟨13000, 14000⟩,
          ⟨14000, 15000⟩, ⟨15000, 17000⟩] ∧
      (⟨6000, 7000⟩ : Seg) ∈
        segmentConstruction 20000 [⟨0, 5000⟩, ⟨17000, 20000⟩] optsMinOverMax ∧
      (6000 : ℚ) ≠ 0 ∧ (7000 : ℚ) ≠ 20000 ∧
      span ⟨6000, 7000⟩ < optsMinOverMax.minChunkDurationMs := by
  have h : segmentConstruction 20000 [⟨0, 5000⟩, ⟨17000, 20000⟩] optsMinOverMax =
      [⟨5000, 6000⟩, ⟨6000, 7000⟩, ⟨7000, 8000⟩, ⟨8000, 9000⟩, ⟨9000, 10000⟩,
        ⟨10000, 11000⟩, ⟨11000, 12000⟩, ⟨12000, 13000⟩, ⟨13000, 14000⟩,
        ⟨14000, 15000⟩, ⟨15000, 17000⟩] := by
    norm_num [optsMinOverMax, DEFAULT_OPTIONS, segmentConstruction, buildSpeechSegments,
      invertSilences, invertStep, padSegments, mergeGo, enforceDurationConstraints, minPass,
      minPassStep, adjustSegment, maxPass, maxPassStep, splitGo_step, splitGo_stop,
      List.foldl, List.filter, min_def, max_def]
  refine ⟨h, ?_, by norm_num, by norm_num, ?_⟩
  · rw [h]
    simp
  · norm_num [span, optsMinOverMax, DEFAULT_OPTIONS]
/-! ### Minimum-duration pass invariants -/

/-- The single-segment minimum-duration adjustment keeps the segment in
bounds and positive, and establishes the `MinAdjusted` disjunction. -/
theorem adjustSegment_spec (minC D : ℚ) (seg : Seg) (h : InB D seg)
    (hpos : 0 < span seg) :
    InB D (adjustSegment minC D seg) ∧ 0 < span (adjustSegment minC D seg) ∧
      MinAdjusted minC D (adjustSegment minC D seg) := by
  obtain ⟨h0, hse, heD⟩ := h
  have hlt : seg.startMs < seg.endMs := by
    unfold span at hpos
    linarith
  have hD : 0 < D := lt_of_lt_of_le (lt_of_le_of_lt h0 hlt) heD
  simp only [adjustSegment]
  set half := (minC - (seg.endMs - seg.startMs)) / 2 with hhalf
  set aS := 0 ⊔ (seg.startMs - half) with haSdef
  set aE := D ⊓ (seg.endMs + half) with haEdef
  split_ifs with h1 h2 h3 h4
  all_goals simp only [InB, span, MinAdjusted]
  · -- clamped at 0: one-sided extension to the right
    have hminpos : 0 < minC := by linarith
    have haSle : aS ≤ seg.startMs := sup_le h0 (by linarith)
    refine ⟨⟨le_of_eq h3.symm, le_inf (haSle.trans (hse.trans heD)) (by linarith), inf_le_left⟩,
      ?_, Or.inr (Or.inl ⟨h3, ?_⟩)⟩
    · rw [h3]
      simp only [zero_add, sub_zero]
      exact lt_inf_iff.mpr ⟨hD, hminpos⟩
    · rw [h3]
      simp only [zero_add, sub_zero]
      rw [inf_comm]
  · -- clamped at durationMs: one-sided extension to the left
    have hminpos : 0 < minC := by linarith
    have haEpos : 0 < aE := lt_inf_iff.mpr ⟨hD, by linarith⟩
    rcases le_total (aE - minC) 0 with hc | hc
    · have hsup : 0 ⊔ (aE - minC) = 0 := sup_eq_left.mpr hc
      refine ⟨⟨le_sup_left, ?_, le_of_eq h4⟩, ?_, Or.inr (Or.inr ⟨h4, ?_⟩)⟩
      · rw [hsup]
        exact le_of_lt haEpos
      · rw [hsup]
        simpa using haEpos
      · rw [hsup, h4]
        simpa using inf_le_right
    · have hsup : 0 ⊔ (aE - minC) = aE - minC := sup_eq_right.mpr hc
      refine ⟨⟨le_sup_left, by rw [hsup]; linarith, le_of_eq h4⟩, ?_,
        Or.inr (Or.inr ⟨h4, ?_⟩)⟩
      · rw [hsup]
        linarith
      · rw [hsup]
        have : aE - (aE - minC) = minC := by ring
        rw [this]
        exact inf_le_left
  · -- clamped at neither boundary yet sub-minimum: impossible
    exfalso
    have hhalfpos : 0 < half := by
      rw [hhalf]
      linarith
    have haS : aS = seg.startMs - half := by
      rcases le_or_lt (seg.startMs - half) 0 with hc | hc
      · exact absurd (haSdef.trans (sup_eq_left.mpr hc)) h3
      · exact haSdef.trans (sup_eq_right.mpr (le_of_lt hc))
    have haE : aE = seg.endMs + half := by
      rcases le_or_lt D (seg.endMs + half) with hc | hc
      · exact absurd (haEdef.trans (inf_eq_left.mpr hc)) h4
      · exact haEdef.trans (inf_eq_right.mpr (le_of_lt hc))
    rw [haS, haE, hhalf] at h2
    have hexp : seg.endMs + (minC - (seg.endMs - seg.startMs)) / 2 -
        (seg.startMs - (minC - (seg.endMs - seg.startMs)) / 2) = minC := by ring
    rw [hexp] at h2
    exact lt_irrefl _ h2
  · -- the symmetric growth reaches the minimum
    have hminpos : 0 < minC := by linarith
    have haSle : aS ≤ seg.startMs := sup_le h0 (by linarith)
    have haEge : seg.endMs ≤ aE := le_inf heD (by linarith)
    refine ⟨⟨le_sup_left, le_of_lt ?_, inf_le_left⟩, ?_, Or.inl (not_lt.mp h2)⟩
    · exact lt_of_le_of_lt haSle (lt_of_lt_of_le hlt haEge)
    · have := not_lt.mp h2
      linarith
  · -- already at or above the minimum
    exact ⟨⟨h0, hse, heD⟩, hpos, Or.inl (not_lt.mp h1)⟩

/-- One step of the minimum-duration pass preserves the pass invariants:
members in bounds, positive and `MinAdjusted`; all but the first (the last of
the reversed accumulator) meet the minimum; entries strictly separated. -/
theorem minPassStep_inv (minC D : ℚ) (acc : List Seg) (seg : Seg)
    (hseg : InB D seg)
    (hQ : ∀ s ∈ acc, InB D s ∧ 0 < span s ∧ MinAdjusted minC D s)
    (hT : ∀ s ∈ acc.dropLast, minC ≤ span s)
    (hC : List.Chain' (fun x y => y.endMs < x.startMs) acc) :
    (∀ s ∈ minPassStep minC D acc seg, InB D s ∧ 0 < span s ∧ MinAdjusted minC D s) ∧
      (∀ s ∈ (minPassStep minC D acc seg).dropLast, minC ≤ span s) ∧
      List.Chain' (fun x y => y.endMs < x.startMs) (minPassStep minC D acc seg) := by
  by_cases h0 : seg.endMs - seg.startMs ≤ 0
  · simp only [minPassStep, if_pos h0]
    exact ⟨hQ, hT, hC⟩
  · have hpos : 0 < span seg := by
      unfold span
      linarith [not_le.mp h0]
    obtain ⟨haInB, hapos, haMA⟩ := adjustSegment_spec minC D seg hseg hpos
    have hnskip : ¬((adjustSegment minC D seg).endMs ≤ (adjustSegment minC D seg).startMs) := by
      unfold span at hapos
      exact not_le.mpr (by linarith)
    simp only [minPassStep, if_neg h0, if_neg hnskip]
    set a := adjustSegment minC D seg with hadef
    have hclampS : max 0 (min a.startMs D) = a.startMs := by
      rw [min_eq_left (haInB.2.1.trans haInB.2.2), max_eq_right haInB.1]
    have hclampE : max 0 (min a.endMs D) = a.endMs := by
      rw [min_eq_left haInB.2.2, max_eq_right (haInB.1.trans haInB.2.1)]
    cases acc with
    | nil =>
      simp only [hclampS, hclampE]
      refine ⟨?_, ?_, ?_⟩
      · intro s hs
        rw [List.mem_singleton] at hs
        subst hs
        exact ⟨haInB, hapos, haMA⟩
      · intro s hs
        simp [List.dropLast] at hs
      · simp
    | cons prev tl =>
      obtain ⟨hprevInB, hprevpos, hprevMA⟩ := hQ prev (List.mem_cons_self _ _)
      by_cases hm : a.startMs ≤ prev.endMs
      · -- merge into the previous entry
        simp only [if_pos hm]
        have hspan_mono : span prev ≤ span ⟨prev.startMs, max prev.endMs a.endMs⟩ := by
          unfold span
          simp only
          linarith [le_max_left prev.endMs a.endMs]
        have hnewQ : InB D ⟨prev.startMs, max prev.endMs a.endMs⟩ ∧
            0 < span ⟨prev.startMs, max prev.endMs a.endMs⟩ ∧
            MinAdjusted minC D ⟨prev.startMs, max prev.endMs a.endMs⟩ := by
          refine ⟨⟨hprevInB.1, hprevInB.2.1.trans (le_max_left _ _),
            max_le hprevInB.2.2 haInB.2.2⟩, lt_of_lt_of_le hprevpos hspan_mono, ?_⟩
          rcases hprevMA with hma | ⟨hz, hge⟩ | ⟨hDe, hge⟩
          · exact Or.inl (hma.trans hspan_mono)
          · exact Or.inr (Or.inl ⟨hz, hge.trans hspan_mono⟩)
          · refine Or.inr (Or.inr ⟨?_, hge.trans hspan_mono⟩)
            show max prev.endMs a.endMs = D
            rw [hDe]
            exact max_eq_left haInB.2.2
        refine ⟨?_, ?_, ?_⟩
        · intro s hs
          rcases List.mem_cons.mp hs with hs | hs
          · subst hs
            exact hnewQ
          · exact hQ s (List.mem_cons_of_mem _ hs)
        · cases tl with
          | nil =>
            intro s hs
            simp [List.dropLast] at hs
          | cons t1 tl2 =>
            intro s hs
            simp only [List.dropLast] at hs
            rcases List.mem_cons.mp hs with hs | hs
            · subst hs
              have hprevT : minC ≤ span prev := by
                apply hT
                simp [List.dropLast]
              exact hprevT.trans hspan_mono
            · apply hT
              simp only [List.dropLast]
              exact List.mem_cons_of_mem _ hs
        · rw [List.chain'_cons'] at hC ⊢
          exact ⟨fun y hy => hC.1 y hy, hC.2⟩
      · -- push the adjusted segment
        simp only [if_neg hm, hclampS, hclampE]
        have hprev0 : 0 ≤ prev.endMs := hprevInB.1.trans hprevInB.2.1
        have hmlt : prev.endMs < a.startMs := not_le.mp hm
        have hamin : minC ≤ span a := by
          rcases haMA with hma | ⟨hz, _⟩ | ⟨hDe, hge⟩
          · exact hma
          · exfalso
            rw [hz] at hmlt
            linarith
          · by_cases hcd : minC ≤ D
            · rwa [min_eq_left hcd] at hge
            · exfalso
              rw [min_eq_right (le_of_not_le hcd)] at hge
              unfold span at hge
              have : a.startMs ≤ 0 := by
                rw [hDe] at hge
                linarith
              linarith [haInB.1]
        refine ⟨?_, ?_, ?_⟩
        · intro s hs
          rcases List.mem_cons.mp hs with hs | hs
          · subst hs
            exact ⟨haInB, hapos, haMA⟩
          · exact hQ s hs
        · intro s hs
          simp only [List.dropLast] at hs
          rcases List.mem_cons.mp hs with hs | hs
          · subst hs
            exact hamin
          · exact hT s hs
        · rw [List.chain'_cons']
          refine ⟨?_, hC⟩
          intro y hy
          simp only [List.head?_cons, Option.mem_def, Option.some.injEq] at hy
          subst hy
          exact hmlt

/-- The minimum-duration fold preserves the pass invariants. -/
theorem minPass_fold_inv (minC D : ℚ) :
    ∀ (l acc : List Seg),
      (∀ s ∈ l, InB D s) →
      (∀ s ∈ acc, InB D s ∧ 0 < span s ∧ MinAdjusted minC D s) →
      (∀ s ∈ acc.dropLast, minC ≤ span s) →
      List.Chain' (fun x y => y.endMs < x.startMs) acc →
      (∀ s ∈ l.foldl (minPassStep minC D) acc,
          InB D s ∧ 0 < span s ∧ MinAdjusted minC D s) ∧
        (∀ s ∈ (l.foldl (minPassStep minC D) acc).dropLast, minC ≤ span s) ∧
        List.Chain' (fun x y => y.endMs < x.startMs) (l.foldl (minPassStep minC D) acc) := by
  intro l
  induction l with
  | nil =>
    intro acc _ hQ hT hC
    exact ⟨hQ, hT, hC⟩
  | cons seg rest ih =>
    intro acc hl hQ hT hC
    obtain ⟨hQ2, hT2, hC2⟩ :=
      minPassStep_inv minC D acc seg (hl seg (List.mem_cons_self _ _)) hQ hT hC
    simpa using ih (minPassStep minC D acc seg)
      (fun s hs => hl s (List.mem_cons_of_mem _ hs)) hQ2 hT2 hC2

/-- Reversal turns the tail into the reversed `dropLast`. -/
theorem tail_reverse_eq {α : Type} (l : List α) : l.reverse.tail = l.dropLast.reverse := by
  induction l using List.reverseRecOn with
  | nil => rfl
  | append_singleton xs x _ => simp

/-- The minimum-duration pass: every output segment is in bounds, positive
and `MinAdjusted`; all but the first meet the minimum; the list is strictly
separated in order. -/
theorem minPass_spec (minC D : ℚ) (segs : List Seg) (hsegs : ∀ s ∈ segs, InB D s) :
    (∀ s ∈ minPass minC D segs, InB D s ∧ 0 < span s ∧ MinAdjusted minC D s) ∧
      (∀ s ∈ (minPass minC D segs).tail, minC ≤ span s) ∧
      List.Chain' (fun x y => x.endMs < y.startMs) (minPass minC D segs) := by
  obtain ⟨hQ, hT, hC⟩ := minPass_fold_inv minC D segs [] hsegs (by simp) (by simp) (by simp)
  unfold minPass
  refine ⟨?_, ?_, ?_⟩
  · intro s hs
    exact hQ s (List.mem_reverse.mp hs)
  · intro s hs
    rw [tail_reverse_eq] at hs
    exact hT s (List.mem_reverse.mp hs)
  · exact List.chain'_reverse.mpr hC

/-! ### Maximum-duration pass invariants -/

/-- Characterization of the splitting loop: it prepends some list `w` of
exact `maxC`-wide windows covering `[cur, cur']`, with the final position
`cur'` short of `e` by at most `maxC` and the windows chained end-to-start
(reversed: the head is the last window, ending at `cur'`; the last element is
the first window, starting at `cur`). -/
theorem splitGo_spec (maxC : ℚ) (hmax : 0 < maxC) :
    ∀ (acc : List Seg) (cur e : ℚ), cur < e →
      ∃ w : List Seg,
        (splitGo maxC acc cur e).1 = w ++ acc ∧
        cur ≤ (splitGo maxC acc cur e).2 ∧
        (splitGo maxC acc cur e).2 < e ∧
        e - (splitGo maxC acc cur e).2 ≤ maxC ∧
        (∀ c ∈ w, span c = maxC ∧ cur ≤ c.startMs ∧ c.endMs ≤ (splitGo maxC acc cur e).2) ∧
        (∀ hd, w.head? = some hd → hd.endMs = (splitGo maxC acc cur e).2) ∧
        (∀ g, w.getLast? = some g → g.startMs = cur) ∧
        List.Chain' (fun x y => y.endMs = x.startMs) w ∧
        (w = [] → (splitGo maxC acc cur e).2 = cur) := by
  intro acc cur e
  induction acc, cur, e using splitGo.induct maxC with
  | case1 acc cur e h ih =>
    intro _
    rw [splitGo_step acc hmax h.2]
    have hlt2 : cur + maxC < e := by linarith [h.2]
    obtain ⟨w2, hw1, hw2, hw3, hw4, hw5, hw6, hw7, hw8, hw9⟩ := ih hlt2
    refine ⟨w2 ++ [⟨cur, cur + maxC⟩], ?_, by linarith, hw3, hw4, ?_, ?_, ?_, ?_, ?_⟩
    · rw [hw1]
      simp
    · intro c hc
      rcases List.mem_append.mp hc with hc | hc
      · obtain ⟨hspan, hcur, hend⟩ := hw5 c hc
        exact ⟨hspan, by linarith, hend⟩
      · rw [List.mem_singleton] at hc
        subst hc
        refine ⟨by unfold span; simp, le_refl _, hw2⟩
    · intro hd hhd
      cases w2 with
      | nil =>
        simp only [List.nil_append, List.head?_cons, Option.some.injEq] at hhd
        subst hhd
        simp only
        exact (hw9 rfl).symm
      | cons a t =>
        simp only [List.cons_append, List.head?_cons, Option.some.injEq] at hhd
        subst hhd
        exact hw6 _ rfl
    · intro g hg
      rw [List.getLast?_concat] at hg
      cases hg
      rfl
    · rw [List.chain'_append]
      refine ⟨hw8, List.chain'_singleton _, ?_⟩
      intro x hx y hy
      simp only [List.head?_cons, Option.mem_def, Option.some.injEq] at hy
      subst hy
      show (Seg.mk cur (cur + maxC)).endMs = x.startMs
      rw [hw7 x hx]
    · intro habs
      simp at habs
  | case2 acc cur e h =>
    intro hlt
    rw [splitGo_stop acc h]
    refine ⟨[], by simp, le_refl _, hlt, ?_, ?_, ?_, ?_, ?_, fun _ => rfl⟩
    · rcases not_and_or.mp h with hc | hc
      · exact absurd hmax hc
      · linarith [not_lt.mp hc]
    · intro c hc
      simp at hc
    · intro hd hhd
      simp at hhd
    · intro g hg
      simp at hg
    · simp

/-- One step of the maximum-duration pass preserves the pass invariants:
every produced chunk is `ChunkOk`, the (reversed) accumulator stays ordered,
and every chunk ends by the processed segment's end. -/
theorem maxPassStep_spec (minC maxC D : ℚ) (hmax : 0 < maxC) (acc : List Seg) (seg : Seg)
    (hInB : InB D seg) (hpos : 0 < span seg) (hMA : MinAdjusted minC D seg)
    (hfirst : minC ≤ span seg ∨ acc = [])
    (hacc : ∀ c ∈ acc, ChunkOk minC maxC D c)
    (haccC : List.Chain' (fun x y => y.endMs ≤ x.startMs) acc)
    (hsep : ∀ c ∈ acc, c.endMs < seg.startMs) :
    (∀ c ∈ maxPassStep minC maxC D acc seg, ChunkOk minC maxC D c) ∧
      List.Chain' (fun x y => y.endMs ≤ x.startMs) (maxPassStep minC maxC D acc seg) ∧
      (∀ c ∈ maxPassStep minC maxC D acc seg, c.endMs ≤ seg.endMs) := by
  have hse : seg.startMs < seg.endMs := by
    unfold span at hpos
    linarith
  obtain ⟨w, hw1, hw2, hw3, hw4, hw5, hw6, hw7, hw8, hw9⟩ :=
    splitGo_spec maxC hmax acc seg.startMs seg.endMs hse
  have hwOk : ∀ c ∈ w, ChunkOk minC maxC D c := by
    intro c hc
    obtain ⟨hspan, hcs, hce⟩ := hw5 c hc
    have hc0 : 0 ≤ c.startMs := hInB.1.trans hcs
    have hcse : c.startMs ≤ c.endMs := by
      unfold span at hspan
      linarith
    have hcD : c.endMs ≤ D := le_trans hce (le_trans (le_of_lt hw3) hInB.2.2)
    refine ⟨⟨hc0, hcse, hcD⟩, by rw [hspan]; exact hmax, Or.inl (le_of_eq hspan),
      Or.inr (Or.inl hspan), ?_⟩
    rw [hspan]
    exact le_trans (min_le_right _ _) (min_le_left _ _)
  have hminD_le : min minC (min maxC D) ≤ min minC D := by
    exact le_min (min_le_left _ _) (le_trans (min_le_right _ _) (min_le_right _ _))
  have hsegOk45 : (minC ≤ span seg ∨ span seg = maxC ∨ maxC < span seg ∨
      seg.startMs = 0 ∨ seg.endMs = D) ∧ min minC (min maxC D) ≤ span seg := by
    rcases hMA with hma | ⟨hz, hge⟩ | ⟨hDe, hge⟩
    · exact ⟨Or.inl hma, le_trans (min_le_left _ _) hma⟩
    · exact ⟨Or.inr (Or.inr (Or.inr (Or.inl hz))), le_trans (hminD_le.trans hge) (le_refl _)⟩
    · exact ⟨Or.inr (Or.inr (Or.inr (Or.inr hDe))), le_trans (hminD_le.trans hge) (le_refl _)⟩
  have hchainWacc : List.Chain' (fun x y => y.endMs ≤ x.startMs) (w ++ acc) := by
    rw [List.chain'_append]
    refine ⟨List.Chain'.imp (fun a b h => le_of_eq h) hw8, haccC, ?_⟩
    intro x hx y hy
    have hxs : x.startMs = seg.startMs := hw7 x hx
    have : y ∈ acc := by
      cases acc with
      | nil => simp at hy
      | cons a t =>
        simp only [List.head?_cons, Option.mem_def, Option.some.injEq] at hy
        subst hy
        exact List.mem_cons_self _ _
    rw [hxs]
    exact le_of_lt (hsep y this)
  simp only [maxPassStep]
  rw [hw1]
  rcases hw : w with _ | ⟨p1, wt⟩
  · subst hw
    have hcur : (splitGo maxC acc seg.startMs seg.endMs).2 = seg.startMs := hw9 rfl
    cases acc with
    | nil =>
      simp only [List.nil_append]
      rw [hcur]
      have hsegeta : (⟨seg.startMs, seg.endMs⟩ : Seg) = seg := rfl
      refine ⟨?_, by simp, ?_⟩
      · intro c hc
        rw [List.mem_singleton] at hc
        subst hc
        rw [hsegeta]
        refine ⟨hInB, hpos, Or.inl ?_, hsegOk45.1, hsegOk45.2⟩
        rw [hcur] at hw4
        unfold span
        linarith
      · intro c hc
        rw [List.mem_singleton] at hc
        subst hc
        exact le_refl _
    | cons a t =>
      simp only [List.nil_append]
      have hminle : minC ≤ span seg := by
        rcases hfirst with hf | hf
        · exact hf
        · cases hf
      have hcond : ¬(seg.endMs - (splitGo maxC (a :: t) seg.startMs seg.endMs).2 < minC) := by
        rw [hcur]
        unfold span at hminle
        exact not_lt.mpr hminle
      rw [if_neg hcond]
      have hrcOk : ChunkOk minC maxC D
          ⟨(splitGo maxC (a :: t) seg.startMs seg.endMs).2, seg.endMs⟩ := by
        rw [hcur]
        exact ⟨hInB, hpos, Or.inl (by unfold span; rw [hcur] at hw4; simpa using hw4),
          hsegOk45.1, hsegOk45.2⟩
      refine ⟨?_, ?_, ?_⟩
      · intro c hc
        rcases List.mem_cons.mp hc with hc | hc
        · subst hc
          exact hrcOk
        · exact hacc c hc
      · rw [List.chain'_cons']
        refine ⟨?_, haccC⟩
        intro y hy
        simp only [List.head?_cons, Option.mem_def, Option.some.injEq] at hy
        subst hy
        dsimp only
        rw [hcur]
        exact le_of_lt (hsep _ (List.mem_cons_self _ _))
      · intro c hc
        rcases List.mem_cons.mp hc with hc | hc
        · subst hc
          exact le_refl _
        · exact le_of_lt (lt_trans (hsep c hc) hse)
  · -- at least one window was produced
    have hp1w : p1 ∈ w := by
      rw [hw]
      exact List.mem_cons_self _ _
    have hp1end : p1.endMs = (splitGo maxC acc seg.startMs seg.endMs).2 := by
      apply hw6
      rw [hw]
      rfl
    obtain ⟨hp1span, hp1cs, hp1ce⟩ := hw5 p1 hp1w
    have hp1start : p1.startMs = (splitGo maxC acc seg.startMs seg.endMs).2 - maxC := by
      unfold span at hp1span
      linarith
    simp only [List.cons_append]
    by_cases hrem : seg.endMs - (splitGo maxC acc seg.startMs seg.endMs).2 < minC
    · -- merge the sub-minimum remainder into the last window
      rw [if_pos hrem]
      have hminDe : min D seg.endMs = seg.endMs := min_eq_right hInB.2.2
      have hncOk : ChunkOk minC maxC D ⟨p1.startMs, min D seg.endMs⟩ := by
        rw [hminDe]
        have hspannc : span ⟨p1.startMs, seg.endMs⟩ =
            seg.endMs - (splitGo maxC acc seg.startMs seg.endMs).2 + maxC := by
          unfold span
          rw [hp1start]
          ring
        have hrpos : 0 < seg.endMs - (splitGo maxC acc seg.startMs seg.endMs).2 := by
          linarith [hw3]
        refine ⟨⟨hInB.1.trans hp1cs, ?_, hInB.2.2⟩, ?_, ?_, ?_, ?_⟩
        · show p1.startMs ≤ seg.endMs
          rw [hp1start]
          linarith
        · rw [hspannc]
          linarith
        · refine Or.inr ?_
          rw [hspannc]
          linarith
        · refine Or.inr (Or.inr (Or.inl ?_))
          rw [hspannc]
          linarith
        · rw [hspannc]
          have : min minC (min maxC D) ≤ maxC := le_trans (min_le_right _ _) (min_le_left _ _)
          linarith
      have hchainfull := hchainWacc
      rw [hw, List.cons_append, List.chain'_cons'] at hchainfull
      refine ⟨?_, ?_, ?_⟩
      · intro c hc
        rcases List.mem_cons.mp hc with hc | hc
        · subst hc
          exact hncOk
        · rcases List.mem_append.mp hc with hc | hc
          · exact hwOk c (by rw [hw]; exact List.mem_cons_of_mem _ hc)
          · exact hacc c hc
      · rw [List.chain'_cons']
        exact ⟨fun y hy => hchainfull.1 y hy, hchainfull.2⟩
      · intro c hc
        rcases List.mem_cons.mp hc with hc | hc
        · subst hc
          show min D seg.endMs ≤ seg.endMs
          exact min_le_right _ _
        · rcases List.mem_append.mp hc with hc | hc
          · have := (hw5 c (by rw [hw]; exact List.mem_cons_of_mem _ hc)).2.2
            exact le_trans this (le_of_lt hw3)
          · exact le_of_lt (lt_trans (hsep c hc) hse)
    · -- keep the remainder standalone
      rw [if_neg hrem]
      have hrcOk : ChunkOk minC maxC D
          ⟨(splitGo maxC acc seg.startMs seg.endMs).2, seg.endMs⟩ := by
        have hspanrc : span ⟨(splitGo maxC acc seg.startMs seg.endMs).2, seg.endMs⟩ =
            seg.endMs - (splitGo maxC acc seg.startMs seg.endMs).2 := by
          unfold span
          ring
        refine ⟨⟨hInB.1.trans hw2, le_of_lt hw3, hInB.2.2⟩, ?_, ?_, ?_, ?_⟩
        · rw [hspanrc]
          linarith [hw3]
        · rw [hspanrc]
          exact Or.inl hw4
        · refine Or.inl ?_
          rw [hspanrc]
          exact not_lt.mp hrem
        · rw [hspanrc]
          exact le_trans (min_le_left _ _) (not_lt.mp hrem)
      refine ⟨?_, ?_, ?_⟩
      · intro c hc
        rcases List.mem_cons.mp hc with hc | hc
        · subst hc
          exact hrcOk
        · rcases List.mem_cons.mp hc with hc | hc
          · subst hc
            exact hwOk _ hp1w
          · rcases List.mem_append.mp hc with hc | hc
            · exact hwOk c (by rw [hw]; exact List.mem_cons_of_mem _ hc)
            · exact hacc c hc
      · rw [List.chain'_cons']
        refine ⟨?_, by rw [← List.cons_append, ← hw]; exact hchainWacc⟩
        intro y hy
        simp only [List.head?_cons, Option.mem_def, Option.some.injEq] at hy
        subst hy
        dsimp only
        exact le_of_eq hp1end
      · intro c hc
        rcases List.mem_cons.mp hc with hc | hc
        · subst hc
          exact le_refl _
        · rcases List.mem_cons.mp hc with hc | hc
          · subst hc
            exact le_trans hp1ce (le_of_lt hw3)
          · rcases List.mem_append.mp hc with hc | hc
            · have := (hw5 c (by rw [hw]; exact List.mem_cons_of_mem _ hc)).2.2
              exact le_trans this (le_of_lt hw3)
            · exact le_of_lt (lt_trans (hsep c hc) hse)

/-- From an adjacent strict-separation chain with ordered segments, the head
precedes every later element. -/
theorem chain_sep_all (a : Seg) (l : List Seg)
    (hord : ∀ s ∈ l, s.startMs ≤ s.endMs)
    (hc : List.Chain' (fun x y => x.endMs < y.startMs) (a :: l)) :
    ∀ b ∈ l, a.endMs < b.startMs := by
  induction l generalizing a with
  | nil =>
    intro b hb
    simp at hb
  | cons x t ih =>
    intro b hb
    have hax : a.endMs < x.startMs := (List.chain'_cons.mp hc).1
    rcases List.mem_cons.mp hb with hb | hb
    · subst hb
      exact hax
    · have hxb := ih x (fun s hs => hord s (List.mem_cons_of_mem _ hs))
        (List.chain'_cons.mp hc).2 b hb
      have hxe := hord x (List.mem_cons_self _ _)
      linarith

/-- The maximum-duration fold preserves the chunk invariants. -/
theorem maxPass_fold_inv (minC maxC D : ℚ) (hmax : 0 < maxC) :
    ∀ (l acc : List Seg),
      (∀ s ∈ l, InB D s ∧ 0 < span s ∧ MinAdjusted minC D s ∧ minC ≤ span s) →
      List.Chain' (fun x y => x.endMs < y.startMs) l →
      (∀ c ∈ acc, ChunkOk minC maxC D c) →
      List.Chain' (fun x y => y.endMs ≤ x.startMs) acc →
      (∀ c ∈ acc, ∀ s ∈ l, c.endMs < s.startMs) →
      (∀ c ∈ l.foldl (maxPassStep minC maxC D) acc, ChunkOk minC maxC D c) ∧
        List.Chain' (fun x y => y.endMs ≤ x.startMs) (l.foldl (maxPassStep minC maxC D) acc) := by
  intro l
  induction l with
  | nil =>
    intro acc _ _ hQ hC _
    exact ⟨hQ, hC⟩
  | cons seg rest ih =>
    intro acc hl hlC hQ hC hsep
    obtain ⟨h1, h2, h3, h4⟩ := hl seg (List.mem_cons_self _ _)
    obtain ⟨hQ2, hC2, hEnd2⟩ := maxPassStep_spec minC maxC D hmax acc seg h1 h2 h3
      (Or.inl h4) hQ hC (fun c hc => hsep c hc seg (List.mem_cons_self _ _))
    have hsegsep : ∀ s ∈ rest, seg.endMs < s.startMs :=
      chain_sep_all seg rest (fun s hs => (hl s (List.mem_cons_of_mem _ hs)).1.2.1) hlC
    simpa using ih (maxPassStep minC maxC D acc seg)
      (fun s hs => hl s (List.mem_cons_of_mem _ hs)) hlC.tail hQ2 hC2
      (fun c hc s hs => lt_of_le_of_lt (hEnd2 c hc) (hsegsep s hs))

/-- The maximum-duration pass: every output chunk is `ChunkOk` and the output
is ordered and non-overlapping. -/
theorem maxPass_spec (minC maxC D : ℚ) (hmax : 0 < maxC) (l : List Seg)
    (hl1 : ∀ s ∈ l, InB D s ∧ 0 < span s ∧ MinAdjusted minC D s)
    (hl2 : ∀ s ∈ l.tail, minC ≤ span s)
    (hlC : List.Chain' (fun x y => x.endMs < y.startMs) l) :
    (∀ c ∈ maxPass minC maxC D l, ChunkOk minC maxC D c) ∧
      List.Chain' (fun x y => x.endMs ≤ y.startMs) (maxPass minC maxC D l) := by
  unfold maxPass
  cases l with
  | nil => simp
  | cons h t =>
    obtain ⟨hh1, hh2, hh3⟩ := hl1 h (List.mem_cons_self _ _)
    obtain ⟨hQ1, hC1, hEnd1⟩ := maxPassStep_spec minC maxC D hmax [] h hh1 hh2 hh3
      (Or.inr rfl) (by simp) (by simp) (by simp)
    have hsegsep := chain_sep_all h t
      (fun s hs => (hl1 s (List.mem_cons_of_mem _ hs)).1.2.1) hlC
    obtain ⟨hQ, hC⟩ := maxPass_fold_inv minC maxC D hmax t (maxPassStep minC maxC D [] h)
      (fun s hs => ⟨(hl1 s (List.mem_cons_of_mem _ hs)).1,
        (hl1 s (List.mem_cons_of_mem _ hs)).2.1,
        (hl1 s (List.mem_cons_of_mem _ hs)).2.2, hl2 s hs⟩)
      hlC.tail hQ1 hC1
      (fun c hc s hs => lt_of_le_of_lt (hEnd1 c hc) (hsegsep s hs))
    rw [List.foldl_cons]
    exact ⟨fun c hc => hQ c (List.mem_reverse.mp hc), List.chain'_reverse.mpr hC⟩

/-- The full constraint enforcer: on in-bounds input with a positive maximum,
every final segment is `ChunkOk` and the output is ordered and
non-overlapping. -/
theorem enforce_spec (segs : List Seg) (opts : Options) (D : ℚ)
    (hin : ∀ s ∈ segs, InB D s) (hmax : 0 < opts.maxChunkDurationMs) :
    (∀ c ∈ enforceDurationConstraints segs opts D,
        ChunkOk opts.minChunkDurationMs opts.maxChunkDurationMs D c) ∧
      List.Chain' (fun x y => x.endMs ≤ y.startMs) (enforceDurationConstraints segs opts D) := by
  unfold enforceDurationConstraints
  by_cases hemp : segs.isEmpty
  · rw [if_pos hemp, List.isEmpty_iff.mp hemp]
    simp
  · rw [if_neg hemp]
    obtain ⟨hm1, hm2, hm3⟩ := minPass_spec opts.minChunkDurationMs D segs hin
    obtain ⟨hQ, hC⟩ := maxPass_spec opts.minChunkDurationMs opts.maxChunkDurationMs D hmax
      (minPass opts.minChunkDurationMs D segs)
      (fun s hs => ⟨(hm1 s hs).1, (hm1 s hs).2.1, (hm1 s hs).2.2⟩) hm2 hm3
    have hid : (maxPass opts.minChunkDurationMs opts.maxChunkDurationMs D
          (minPass opts.minChunkDurationMs D segs)).map
        (fun s => (⟨max 0 s.startMs, min D s.endMs⟩ : Seg)) =
        maxPass opts.minChunkDurationMs opts.maxChunkDurationMs D
          (minPass opts.minChunkDurationMs D segs) := by
      have hfg : ∀ c ∈ maxPass opts.minChunkDurationMs opts.maxChunkDurationMs D
          (minPass opts.minChunkDurationMs D segs),
          (fun s => (⟨max 0 s.startMs, min D s.endMs⟩ : Seg)) c = id c := by
        intro c hc
        obtain ⟨⟨hc1, hc2, hc3⟩, _⟩ := hQ c hc
        show (⟨max 0 c.startMs, min D c.endMs⟩ : Seg) = c
        rw [max_eq_right hc1, min_eq_right hc3]
      rw [List.map_congr_left hfg, List.map_id]
    rw [hid]
    exact ⟨hQ, hC⟩

/-! ### Segment-builder facts -/

/-- The spec-side inversion walk emits ordered segments inside
`[0, clampedD]`. -/
theorem invertSpecGo_facts (clampedD : ℚ) :
    ∀ (l : List Seg) (cursor : ℚ), 0 ≤ cursor → cursor ≤ clampedD →
      ∀ s ∈ invertSpecGo clampedD cursor l,
        0 ≤ s.startMs ∧ s.startMs < s.endMs ∧ s.endMs ≤ clampedD := by
  intro l
  induction l with
  | nil =>
    intro cursor h0 hD s hs
    simp only [invertSpecGo] at hs
    split_ifs at hs with hlt
    · rw [List.mem_singleton] at hs
      subst hs
      exact ⟨h0, hlt, le_refl _⟩
    · simp at hs
  | cons sil rest ih =>
    intro cursor h0 hD s hs
    have hcD : 0 ≤ clampedD := h0.trans hD
    simp only [invertSpecGo] at hs
    have hst : min (max 0 sil.startMs) clampedD ≤ clampedD := min_le_right _ _
    have he0 : 0 ≤ min (max 0 sil.endMs) clampedD := le_min (le_max_left _ _) hcD
    have heD : min (max 0 sil.endMs) clampedD ≤ clampedD := min_le_right _ _
    have hcur0 : 0 ≤ max cursor (min (max 0 sil.endMs) clampedD) := le_max_of_le_left h0
    have hcurD : max cursor (min (max 0 sil.endMs) clampedD) ≤ clampedD := max_le hD heD
    split_ifs at hs with hc
    · rcases List.mem_cons.mp hs with hs | hs
      · subst hs
        exact ⟨h0, hc, hst⟩
      · exact ih _ hcur0 hcurD s hs
    · exact ih _ hcur0 hcurD s hs

/-- The source fold equals the spec-side inversion walk. -/
theorem invertSilences_eq_spec (D : ℚ) (sil : List Seg) :
    invertSilences D sil = invertSilencesSpec D sil := by
  have h := invertFold_eq_spec (max 0 D) sil 0 []
  simpa [invertSilences, invertSilencesSpec] using h

/-- The inversion pass emits ordered segments inside `[0, max 0 D]`. -/
theorem invertSilences_facts (D : ℚ) (sil : List Seg) :
    ∀ s ∈ invertSilences D sil,
      0 ≤ s.startMs ∧ s.startMs < s.endMs ∧ s.endMs ≤ max 0 D := by
  rw [invertSilences_eq_spec]
  exact invertSpecGo_facts (max 0 D) sil 0 (le_refl 0) (le_max_left _ _)

/-- The padding pass keeps segments ordered and inside `[0, clampedD]` when
both paddings are non-negative. -/
theorem padSegments_facts (clampedD padB padA : ℚ) (l : List Seg)
    (hD : 0 ≤ clampedD) (hpB : 0 ≤ padB) (hpA : 0 ≤ padA)
    (hl : ∀ x ∈ l, 0 ≤ x.startMs ∧ x.startMs < x.endMs ∧ x.endMs ≤ clampedD) :
    ∀ s ∈ padSegments clampedD padB padA l,
      0 ≤ s.startMs ∧ s.startMs < s.endMs ∧ s.endMs ≤ clampedD := by
  intro s hs
  unfold padSegments at hs
  rw [List.mem_filter] at hs
  obtain ⟨hmem, hlt⟩ := hs
  rw [List.mem_map] at hmem
  obtain ⟨x, hx, hxe⟩ := hmem
  obtain ⟨hx0, hxlt, hxD⟩ := hl x hx
  have hpS0 : 0 ≤ max 0 (x.startMs - padB) := le_max_left _ _
  have hpSD : max 0 (x.startMs - padB) ≤ clampedD :=
    max_le hD (by linarith)
  have hpE0 : 0 ≤ min clampedD (x.endMs + padA) := le_min hD (by linarith)
  have hpED : min clampedD (x.endMs + padA) ≤ clampedD := min_le_left _ _
  subst hxe
  refine ⟨le_min hpS0 hpE0, ?_, max_le hpSD hpED⟩
  simpa using hlt

/-- The merge pass keeps segments ordered and in bounds, produces a strictly
separated list, and its head starts where the current segment starts and ends
no earlier. -/
theorem mergeGo_facts (clampedD : ℚ) :
    ∀ (l : List Seg) (current : Seg),
      (0 ≤ current.startMs ∧ current.startMs < current.endMs ∧ current.endMs ≤ clampedD) →
      (∀ x ∈ l, 0 ≤ x.startMs ∧ x.startMs < x.endMs ∧ x.endMs ≤ clampedD) →
      (∀ s ∈ mergeGo current l,
          0 ≤ s.startMs ∧ s.startMs < s.endMs ∧ s.endMs ≤ clampedD) ∧
        List.Chain' (fun x y => x.endMs < y.startMs) (mergeGo current l) ∧
        (∀ hd, (mergeGo current l).head? = some hd → hd.startMs = current.startMs) ∧
        mergeGo current l ≠ [] := by
  intro l
  induction l with
  | nil =>
    intro current hcur _
    refine ⟨?_, by simp [mergeGo], ?_, by simp [mergeGo]⟩
    · intro s hs
      simp only [mergeGo, List.mem_singleton] at hs
      subst hs
      exact hcur
    · intro hd hh
      simp only [mergeGo, List.head?_cons, Option.some.injEq] at hh
      subst hh
      rfl
  | cons c rest ih =>
    intro current hcur hl
    obtain ⟨hc0, hclt, hcD⟩ := hl c (List.mem_cons_self _ _)
    by_cases hm : c.startMs ≤ current.endMs
    · simp only [mergeGo, if_pos hm]
      have hnew : 0 ≤ (⟨current.startMs, max current.endMs c.endMs⟩ : Seg).startMs ∧
          (⟨current.startMs, max current.endMs c.endMs⟩ : Seg).startMs <
            (⟨current.startMs, max current.endMs c.endMs⟩ : Seg).endMs ∧
          (⟨current.startMs, max current.endMs c.endMs⟩ : Seg).endMs ≤ clampedD := by
        refine ⟨hcur.1, ?_, max_le hcur.2.2 hcD⟩
        exact lt_of_lt_of_le hcur.2.1 (le_max_left _ _)
      obtain ⟨f1, f2, f3, f4⟩ := ih ⟨current.startMs, max current.endMs c.endMs⟩ hnew
        (fun x hx => hl x (List.mem_cons_of_mem _ hx))
      exact ⟨f1, f2, fun hd hh => f3 hd hh, f4⟩
    · simp only [mergeGo, if_neg hm]
      obtain ⟨f1, f2, f3, f4⟩ := ih c ⟨hc0, hclt, hcD⟩
        (fun x hx => hl x (List.mem_cons_of_mem _ hx))
      refine ⟨?_, ?_, ?_, by simp⟩
      · intro s hs
        rcases List.mem_cons.mp hs with hs | hs
        · subst hs
          exact hcur
        · exact f1 s hs
      · rw [List.chain'_cons']
        refine ⟨?_, f2⟩
        intro y hy
        have hys : y.startMs = c.startMs := f3 y hy
        rw [hys]
        exact lt_of_not_le hm
      · intro hd hh
        simp only [List.head?_cons, Option.some.injEq] at hh
        subst hh
        rfl

/-- The segment builder produces ordered, strictly separated segments inside
`[0, max 0 D]` whenever both paddings are non-negative. -/
theorem buildSpeechSegments_facts (D : ℚ) (sil : List Seg) (opts : Options)
    (hpB : 0 ≤ opts.paddingBeforeMs) (hpA : 0 ≤ opts.paddingAfterMs) :
    (∀ s ∈ buildSpeechSegments D sil opts,
        0 ≤ s.startMs ∧ s.startMs < s.endMs ∧ s.endMs ≤ max 0 D) ∧
      List.Chain' (fun x y => x.endMs < y.startMs) (buildSpeechSegments D sil opts) := by
  simp only [buildSpeechSegments]
  have hpad := padSegments_facts (max 0 D) opts.paddingBeforeMs opts.paddingAfterMs
    (invertSilences D sil) (le_max_left _ _) hpB hpA (invertSilences_facts D sil)
  cases hm : padSegments (max 0 D) opts.paddingBeforeMs opts.paddingAfterMs
      (invertSilences D sil) with
  | nil => simp
  | cons c rest =>
    have hc := hpad c (by rw [hm]; exact List.mem_cons_self _ _)
    obtain ⟨f1, f2, _, _⟩ := mergeGo_facts (max 0 D) rest c hc
      (fun x hx => hpad x (by rw [hm]; exact List.mem_cons_of_mem _ hx))
    exact ⟨f1, f2⟩

/-- C2: on merged segments (segments lying inside `[0, durationMs]`, the
invariant the builder guarantees) with a positive maximum, no final segment
produced by the duration constraint enforcer exceeds `maxChunkDurationMs`,
except a merged remainder: a too-long segment is split into fixed-size
windows and a remainder is merged into the last split window only when it is
shorter than `minChunkDurationMs`, so any over-long final segment exceeds the
maximum by strictly less than the minimum. -/
theorem C2_max_duration_invariant (segs : List Seg) (opts : Options) (D : ℚ)
    (hin : ∀ s ∈ segs, InB D s) (hmax : 0 < opts.maxChunkDurationMs) :
    ∀ c ∈ enforceDurationConstraints segs opts D,
      span c ≤ opts.maxChunkDurationMs ∨
        (opts.maxChunkDurationMs < span c ∧
          span c < opts.maxChunkDurationMs + opts.minChunkDurationMs) := by
  intro c hc
  obtain ⟨_, _, h3, _, _⟩ := (enforce_spec segs opts D hin hmax).1 c hc
  rcases h3 with h | h
  · exact Or.inl h
  · rcases lt_or_le opts.maxChunkDurationMs (span c) with hgt | hle
    · exact Or.inr ⟨hgt, h⟩
    · exact Or.inl hle

/-- Witness for C2 on the max-split scenario's standalone remainder. -/
theorem C2_witness :
    span ⟨20000, 25000⟩ ≤ optsMaxSplit.maxChunkDurationMs ∨
      (optsMaxSplit.maxChunkDurationMs < span ⟨20000, 25000⟩ ∧
        span ⟨20000, 25000⟩ <
          optsMaxSplit.maxChunkDurationMs + optsMaxSplit.minChunkDurationMs) := by
  have hmem : (⟨20000, 25000⟩ : Seg) ∈
      enforceDurationConstraints [⟨0, 25000⟩] optsMaxSplit 25000 := by
    have h : enforceDurationConstraints [⟨0, 25000⟩] optsMaxSplit 25000 =
        [⟨0, 10000⟩, ⟨10000, 20000⟩, ⟨20000, 25000⟩] := by
      norm_num [optsMaxSplit, DEFAULT_OPTIONS, enforceDurationConstraints, minPass, minPassStep,
        adjustSegment, maxPass, maxPassStep, splitGo_step, splitGo_stop, List.foldl,
        min_def, max_def]
    rw [h]
    simp
  refine C2_max_duration_invariant [⟨0, 25000⟩] optsMaxSplit 25000 ?_ ?_ _ hmem
  · intro s hs
    rw [List.mem_singleton] at hs
    subst hs
    exact ⟨by norm_num, by norm_num, by norm_num⟩
  · norm_num [optsMaxSplit, DEFAULT_OPTIONS]

/-- C5 (amended): on merged segments inside `[0, durationMs]`, provided
`minChunkDurationMs ≤ maxChunkDurationMs` (the counterexample shows the
invariant fails otherwise) and the maximum is positive, every final segment
that touches neither media boundary has span at least `minChunkDurationMs`. -/
theorem C5_min_duration_invariant (segs : List Seg) (opts : Options) (D : ℚ)
    (hin : ∀ s ∈ segs, InB D s)
    (hmm : opts.minChunkDurationMs ≤ opts.maxChunkDurationMs)
    (hmax : 0 < opts.maxChunkDurationMs) :
    ∀ c ∈ enforceDurationConstraints segs opts D,
      opts.minChunkDurationMs ≤ span c ∨ c.startMs = 0 ∨ c.endMs = D := by
  intro c hc
  obtain ⟨_, _, _, h4, _⟩ := (enforce_spec segs opts D hin hmax).1 c hc
  rcases h4 with h | h | h | h | h
  · exact Or.inl h
  · exact Or.inl (h ▸ hmm)
  · exact Or.inl (le_of_lt (lt_of_le_of_lt hmm h))
  · exact Or.inr (Or.inl h)
  · exact Or.inr (Or.inr h)

/-- Witness for C5 on the max-split scenario. -/
theorem C5_witness :
    optsMaxSplit.minChunkDurationMs ≤ span ⟨10000, 20000⟩ ∨
      (10000 : ℚ) = 0 ∨ (20000 : ℚ) = 25000 := by
  have hmem : (⟨10000, 20000⟩ : Seg) ∈
      enforceDurationConstraints [⟨0, 25000⟩] optsMaxSplit 25000 := by
    have h : enforceDurationConstraints [⟨0, 25000⟩] optsMaxSplit 25000 =
        [⟨0, 10000⟩, ⟨10000, 20000⟩, ⟨20000, 25000⟩] := by
      norm_num [optsMaxSplit, DEFAULT_OPTIONS, enforceDurationConstraints, minPass, minPassStep,
        adjustSegment, maxPass, maxPassStep, splitGo_step, splitGo_stop, List.foldl,
        min_def, max_def]
    rw [h]
    simp
  exact C5_min_duration_invariant [⟨0, 25000⟩] optsMaxSplit 25000
    (by
      intro s hs
      rw [List.mem_singleton] at hs
      subst hs
      exact ⟨by norm_num, by norm_num, by norm_num⟩)
    (by norm_num [optsMaxSplit, DEFAULT_OPTIONS])
    (by norm_num [optsMaxSplit, DEFAULT_OPTIONS]) _ hmem

/-! ### Rounding and identifier lemmas for the ordering claim -/

/-- `Math.round` is monotone. -/
theorem jsRound_mono {a b : ℚ} (h : a ≤ b) : jsRound a ≤ jsRound b :=
  Int.floor_mono (by linarith)

/-- `Math.round` commutes with adding one. -/
theorem jsRound_add_one (q : ℚ) : jsRound (q + 1) = jsRound q + 1 := by
  unfold jsRound
  rw [show q + 1 + 1/2 = q + 1/2 + 1 by ring]
  exact_mod_cast Int.floor_add_one (q + 1/2)

/-- Points at least one millisecond apart round to distinct values. -/
theorem jsRound_strict {a b : ℚ} (h : a + 1 ≤ b) : jsRound a < jsRound b := by
  have hm := jsRound_mono h
  rw [jsRound_add_one] at hm
  omega

/-- `assignChunkIds` preserves list length. -/
theorem assignChunkIds_length : ∀ (segs : List Seg) (i : ℕ),
    (assignChunkIds i segs).length = segs.length := by
  intro segs
  induction segs with
  | nil => intro i; rfl
  | cons a t ih =>
    intro i
    show (mkChunk i a :: assignChunkIds (i + 1) t).length = t.length + 1
    rw [List.length_cons, ih]

/-- `assignChunkIds` transports a segment chain to a chunk chain. -/
theorem assignChunkIds_chain (R : MediaChunk → MediaChunk → Prop) (S : Seg → Seg → Prop)
    (hRS : ∀ a b i j, S a b → R (mkChunk i a) (mkChunk j b)) :
    ∀ (segs : List Seg), List.Chain' S segs → ∀ i, List.Chain' R (assignChunkIds i segs) := by
  intro segs
  induction segs with
  | nil =>
    intro _ i
    simp [assignChunkIds]
  | cons a t ih =>
    intro hc i
    cases t with
    | nil => simp [assignChunkIds]
    | cons b t2 =>
      show List.Chain' R (mkChunk i a :: mkChunk (i + 1) b :: assignChunkIds (i + 2) t2)
      rw [List.chain'_cons]
      exact ⟨hRS a b i (i + 1) (List.chain'_cons.mp hc).1,
        ih (List.chain'_cons.mp hc).2 (i + 1)⟩

/-- The identifiers assigned by `assignChunkIds` are `chunk-<i+k+1>` in list
order. -/
theorem assignChunkIds_ids : ∀ (segs : List Seg) (i : ℕ),
    (assignChunkIds i segs).map (fun c => c.id) =
      (List.range segs.length).map (fun k => "chunk-" ++ toString (i + k + 1)) := by
  intro segs
  induction segs with
  | nil =>
    intro i
    rfl
  | cons a t ih =>
    intro i
    show ("chunk-" ++ toString (i + 1)) :: (assignChunkIds (i + 1) t).map (fun c => c.id) = _
    rw [ih (i + 1), List.length_cons, List.range_succ_eq_map, List.map_cons, List.map_map]
    congr 1
    apply List.map_congr_left
    intro k _
    show "chunk-" ++ toString (i + 1 + k + 1) = "chunk-" ++ toString (i + (k + 1) + 1)
    congr 2
    omega

/-- Strengthen a non-overlap chain with a per-element span bound. -/
theorem chain_with_span {l : List Seg}
    (h : List.Chain' (fun x y => x.endMs ≤ y.startMs) l) (hall : ∀ s ∈ l, 1 ≤ span s) :
    List.Chain' (fun x y => x.endMs ≤ y.startMs ∧ 1 ≤ span x) l := by
  induction l with
  | nil => simp
  | cons a t ih =>
    cases t with
    | nil => simp
    | cons b t2 =>
      rw [List.chain'_cons] at h ⊢
      exact ⟨⟨h.1, hall a (List.mem_cons_self _ _)⟩,
        ih h.2 fun s hs => hall s (List.mem_cons_of_mem _ hs)⟩

/-- C4 (amended): for non-negative paddings, a non-negative duration and
constraint parameters of at least one millisecond (sub-millisecond
parameters allow rounding collisions, see the counterexample), the final
chunk list is strictly ascending by `startMs` and non-overlapping, and the
identifiers `chunk-1..chunk-n` are assigned 1-based in exactly that order. -/
theorem C4_ordering_and_ids (durationMs : ℤ) (silences : List Seg) (opts : Options)
    (hpB : 0 ≤ opts.paddingBeforeMs) (hpA : 0 ≤ opts.paddingAfterMs)
    (hD : 0 ≤ durationMs)
    (hmin : 1 ≤ opts.minChunkDurationMs) (hmax : 1 ≤ opts.maxChunkDurationMs) :
    List.Chain' (fun a b => a.startMs < b.startMs ∧ a.endMs ≤ b.startMs)
        (analyzeChunks durationMs silences opts) ∧
      (analyzeChunks durationMs silences opts).map (fun c => c.id) =
        (List.range (analyzeChunks durationMs silences opts).length).map
          (fun k => "chunk-" ++ toString (k + 1)) := by
  have hmaxpos : (0:ℚ) < opts.maxChunkDurationMs := lt_of_lt_of_le one_pos hmax
  have hDq : (0:ℚ) ≤ (durationMs:ℚ) := by exact_mod_cast hD
  have hmaxD : max 0 (durationMs:ℚ) = (durationMs:ℚ) := max_eq_right hDq
  obtain ⟨hb1, hb2⟩ := buildSpeechSegments_facts (durationMs:ℚ) silences opts hpB hpA
  have hin : ∀ s ∈ buildSpeechSegments (durationMs:ℚ) silences opts,
      InB (durationMs:ℚ) s := by
    intro s hs
    obtain ⟨ha, hb, hc⟩ := hb1 s hs
    exact ⟨ha, le_of_lt hb, by rwa [hmaxD] at hc⟩
  obtain ⟨hQ, hC⟩ := enforce_spec _ opts _ hin hmaxpos
  have hspan1 : ∀ c ∈ enforceDurationConstraints
      (buildSpeechSegments (durationMs:ℚ) silences opts) opts (durationMs:ℚ), 1 ≤ span c := by
    intro c hc
    obtain ⟨⟨hc1, hc2, hc3⟩, hpos, _, _, h5⟩ := hQ c hc
    by_cases hD1 : (1:ℚ) ≤ (durationMs:ℚ)
    · have hb : (1:ℚ) ≤ min opts.minChunkDurationMs
          (min opts.maxChunkDurationMs (durationMs:ℚ)) :=
        le_min hmin (le_min hmax hD1)
      linarith
    · exfalso
      have hD0 : (durationMs:ℚ) = 0 := by
        have h1 : durationMs < 1 := by exact_mod_cast not_le.mp hD1
        have : durationMs = 0 := by omega
        exact_mod_cast this
      rw [hD0] at hc3
      unfold span at hpos
      linarith
  refine ⟨?_, ?_⟩
  · exact assignChunkIds_chain _ (fun a b => a.endMs ≤ b.startMs ∧ 1 ≤ span a)
      (by
        intro a b i j hS
        unfold mkChunk
        constructor
        · apply jsRound_strict
          have : a.startMs + 1 ≤ a.endMs := by
            have := hS.2
            unfold span at this
            linarith
          linarith [hS.1]
        · exact jsRound_mono hS.1)
      _ (chain_with_span hC hspan1) 0
  · unfold analyzeChunks
    rw [assignChunkIds_ids, assignChunkIds_length]
    apply List.map_congr_left
    intro k _
    norm_num

/-- Witness for C4 on the basic-split scenario. -/
theorem C4_witness :
    List.Chain' (fun a b => a.startMs < b.startMs ∧ a.endMs ≤ b.startMs)
        (analyzeChunks 10000 [⟨2000, 3000⟩] optsBasicSplit) ∧
      (analyzeChunks 10000 [⟨2000, 3000⟩] optsBasicSplit).map (fun c => c.id) =
        (List.range (analyzeChunks 10000 [⟨2000, 3000⟩] optsBasicSplit).length).map
          (fun k => "chunk-" ++ toString (k + 1)) :=
  C4_ordering_and_ids 10000 [⟨2000, 3000⟩] optsBasicSplit
    (by norm_num [optsBasicSplit, DEFAULT_OPTIONS])
    (by norm_num [optsBasicSplit, DEFAULT_OPTIONS]) (by norm_num)
    (by norm_num [optsBasicSplit, DEFAULT_OPTIONS])
    (by norm_num [optsBasicSplit, DEFAULT_OPTIONS])

end Voxscribe
